import Mathlib

/-!
Verification of the interpolation and subsumption core (TracerX) against its
natural-language specification.  The definitions below are shallow embeddings
of the functions in src/lib/Core/Dependency.cpp and src/lib/Core/ITree.cpp;
expressions, LLVM values and allocations are abstracted to natural-number
identities wherever only identity comparison is performed by the source.
-/

namespace TracerX

/-! ## Dependency contexts and `Dependency::stores` (Dependency.cpp) -/

/-- An `Allocation` object: `aid` models the C++ object identity (address),
`site` the `llvm::Value *` allocation site, `composite` the result of
`isComposite()` (true for `CompositeAllocation`, false for
`VersionedAllocation`). -/
structure Allocation where
  aid : Nat
  site : Nat
  composite : Bool
deriving DecidableEq, Repr

/-- A `StorageCell`: pairs the allocation object with the stored
`VersionedValue` (abstracted to its identity). -/
structure StorageCell where
  alloc : Allocation
  value : Nat
deriving DecidableEq, Repr

/-- One `Dependency` object of the parent chain: its `storesList`,
`allocationsList` and `newVersionedAllocations` members. -/
structure DepFrame where
  storesList : List StorageCell
  allocationsList : List Allocation
  newVersionedAllocations : List Nat
deriving Repr

/-- A `Dependency` with its parent chain: the head is the local context, the
tail the chain reachable through `parentDependency` (the empty list plays the
role of a null `parentDependency`). -/
abbrev Dependency := List DepFrame

/-- `StorageCell::stores(allocation)`: returns the stored value when the
cell's allocation is the queried one. -/
def cellStores (c : StorageCell) (a : Allocation) : Option Nat :=
  if c.alloc = a then some c.value else none

/-- All values of local store cells matching `a`, in list order; the composite
branch of `Dependency::stores` collects exactly these locally. -/
def localStoresAll (f : DepFrame) (a : Allocation) : List Nat :=
  f.storesList.filterMap (fun c => cellStores c a)

/-- The first local store-cell value matching `a`, scanning `storesList`
forward; the singleton branch of `Dependency::stores` returns it alone. -/
def firstLocalStore (f : DepFrame) (a : Allocation) : Option Nat :=
  f.storesList.findSome? (fun c => cellStores c a)

/-- `Dependency::stores` (Dependency.cpp, lines 607-644): for composites all
matching store-cell values of the local list, prepended by the whole parent
chain's result; for singletons the first local match, else the parent
chain's result. -/
def Dependency.stores : Dependency → Allocation → List Nat
  | [], _ => []
  | f :: parent, a =>
    if a.composite then
      Dependency.stores parent a ++ localStoresAll f a
    else
      match firstLocalStore f a with
      | some v => [v]
      | none => Dependency.stores parent a

/-- Specification-side definition, following the claim's words: the first
matching store cell found locally, else the parent chain's result. -/
def specSingletonStore : Dependency → Allocation → Option Nat
  | [], _ => none
  | f :: parent, a =>
    match firstLocalStore f a with
    | some v => some v
    | none => specSingletonStore parent a

/-- `Dependency::getLatestAllocation` restricted to one frame: the local
`allocationsList` is scanned in reverse for a matching allocation site. -/
def frameLatestAllocation (f : DepFrame) (site : Nat) : Option Allocation :=
  f.allocationsList.reverse.find? (fun a => a.site = site)

/-- `Dependency::getLatestAllocation`: local reverse scan first, then the
parent chain. -/
def Dependency.getLatestAllocation : Dependency → Nat → Option Allocation
  | [], _ => none
  | f :: parent, site =>
    match frameLatestAllocation f site with
    | some a => some a
    | none => Dependency.getLatestAllocation parent site

/-- `Dependency::getAllVersionedAllocations`: local `newVersionedAllocations`
with the parent chain's result inserted at the front. -/
def Dependency.getAllVersionedAllocations : Dependency → List Nat
  | [] => []
  | f :: parent =>
    Dependency.getAllVersionedAllocations parent ++ f.newVersionedAllocations

/-- Well-formedness maintained by `getInitialAllocation`: whether a site gets
a composite or a versioned allocation is decided by the fixed predicate
`Util::isCompositeAllocation` (`compSite`), and only non-composite sites are
registered in `newVersionedAllocations`. -/
def WfDependency (compSite : Nat → Bool) (d : Dependency) : Prop :=
  (∀ f ∈ d, ∀ a ∈ f.allocationsList, a.composite = compSite a.site) ∧
  (∀ f ∈ d, ∀ s ∈ f.newVersionedAllocations, compSite s = false)

theorem mem_getAllVersionedAllocations {d : Dependency} {site : Nat}
    (h : site ∈ Dependency.getAllVersionedAllocations d) :
    ∃ f ∈ d, site ∈ f.newVersionedAllocations := by
  induction d with
  | nil => simp [Dependency.getAllVersionedAllocations] at h
  | cons f parent ih =>
    simp only [Dependency.getAllVersionedAllocations, List.mem_append] at h
    rcases h with h | h
    · rcases ih h with ⟨g, hg, hs⟩
      exact ⟨g, List.mem_cons_of_mem _ hg, hs⟩
    · exact ⟨f, List.mem_cons_self _ _, h⟩

theorem getLatestAllocation_mem {d : Dependency} {site : Nat} {al : Allocation}
    (h : Dependency.getLatestAllocation d site = some al) :
    (∃ f ∈ d, al ∈ f.allocationsList) ∧ al.site = site := by
  induction d with
  | nil => simp [Dependency.getLatestAllocation] at h
  | cons f parent ih =>
    simp only [Dependency.getLatestAllocation] at h
    cases hf : frameLatestAllocation f site with
    | some a =>
      rw [hf] at h
      cases h
      have hmem := List.find?_some hf
      have hmem2 := List.mem_of_find?_eq_some hf
      refine ⟨⟨f, List.mem_cons_self _ _, ?_⟩, ?_⟩
      · exact List.mem_reverse.mp hmem2
      · exact of_decide_eq_true hmem
    | none =>
      rw [hf] at h
      rcases ih h with ⟨⟨g, hg, hmem⟩, hsite⟩
      exact ⟨⟨g, List.mem_cons_of_mem _ hg, hmem⟩, hsite⟩

theorem stores_singleton_eq_spec (d : Dependency) (a : Allocation)
    (ha : a.composite = false) :
    Dependency.stores d a = (specSingletonStore d a).toList := by
  induction d with
  | nil => simp [Dependency.stores, specSingletonStore]
  | cons f parent ih =>
    simp only [Dependency.stores, specSingletonStore, ha, if_neg Bool.false_ne_true]
    cases firstLocalStore f a with
    | some v => simp
    | none => simpa using ih

theorem cellStores_eq_some {c : StorageCell} {a : Allocation} {v : Nat} :
    cellStores c a = some v ↔ c.alloc = a ∧ c.value = v := by
  unfold cellStores
  by_cases h : c.alloc = a <;> simp [h]

theorem mem_localStoresAll {f : DepFrame} {a : Allocation} {v : Nat} :
    v ∈ localStoresAll f a ↔ ∃ c ∈ f.storesList, c.alloc = a ∧ c.value = v := by
  simp [localStoresAll, List.mem_filterMap, cellStores_eq_some]

theorem stores_composite_mem (d : Dependency) (a : Allocation)
    (ha : a.composite = true) (v : Nat) :
    v ∈ Dependency.stores d a ↔
      ∃ f ∈ d, ∃ c ∈ f.storesList, c.alloc = a ∧ c.value = v := by
  induction d with
  | nil => simp [Dependency.stores]
  | cons f parent ih =>
    simp only [Dependency.stores]
    rw [if_pos ha]
    simp only [List.mem_append, mem_localStoresAll]
    constructor
    · rintro (h | h)
      · rcases ih.mp h with ⟨g, hg, hc⟩
        exact ⟨g, List.mem_cons_of_mem _ hg, hc⟩
      · rcases h with ⟨c, hc, he, hv⟩
        exact ⟨f, List.mem_cons_self _ _, c, hc, he, hv⟩
    · rintro ⟨g, hg, c, hc, he, hv⟩
      rcases List.mem_cons.mp hg with hgf | hgp
      · right
        subst hgf
        exact ⟨c, hc, he, hv⟩
      · left
        exact ih.mpr ⟨g, hgp, c, hc, he, hv⟩

theorem stores_singleton_length_le_one (d : Dependency) (a : Allocation)
    (ha : a.composite = false) :
    (Dependency.stores d a).length ≤ 1 := by
  rw [stores_singleton_eq_spec d a ha]
  cases specSingletonStore d a <;> simp

/-- C1: `stores(a)` behaves per the singleton/composite split.  For a
singleton allocation the result is the first matching local store cell, else
the parent chain's result, hence at most one value; for a composite it is the
union of all matching store-cell values along the chain.  Consequently the
assertion in `getLatestCoreExpressions` — that a versioned-allocation site's
latest allocation stores at most one value — always holds. -/
theorem Dependency.stores_singleton_composite_spec (d : Dependency) (a : Allocation) :
    (a.composite = false →
      Dependency.stores d a = (specSingletonStore d a).toList ∧
      (Dependency.stores d a).length ≤ 1) ∧
    (a.composite = true →
      ∀ v, v ∈ Dependency.stores d a ↔
        ∃ f ∈ d, ∃ c ∈ f.storesList, c.alloc = a ∧ c.value = v) ∧
    (∀ compSite : Nat → Bool, WfDependency compSite d →
      ∀ site ∈ Dependency.getAllVersionedAllocations d,
      ∀ al, Dependency.getLatestAllocation d site = some al →
        (Dependency.stores d al).length ≤ 1) := by
  refine ⟨fun ha => ⟨stores_singleton_eq_spec d a ha, stores_singleton_length_le_one d a ha⟩,
    fun ha v => stores_composite_mem d a ha v, ?_⟩
  intro compSite hwf site hsite al hal
  rcases getLatestAllocation_mem hal with ⟨⟨f, hf, hmem⟩, hs⟩
  rcases mem_getAllVersionedAllocations hsite with ⟨g, hg, hns⟩
  have hcomp : al.composite = compSite al.site := hwf.1 f hf al hmem
  have hfalse : compSite site = false := hwf.2 g hg site hns
  have : al.composite = false := by rw [hcomp, hs, hfalse]
  exact stores_singleton_length_le_one d al this

theorem Dependency.stores_singleton_composite_spec_witness :
    (Dependency.stores
        [⟨[⟨⟨0, 0, false⟩, 5⟩], [⟨0, 0, false⟩], [0]⟩] ⟨0, 0, false⟩).length ≤ 1 ∧
    Dependency.stores
        [⟨[⟨⟨1, 1, true⟩, 3⟩, ⟨⟨1, 1, true⟩, 4⟩], [⟨1, 1, true⟩], []⟩] ⟨1, 1, true⟩ = [3, 4] := by
  constructor
  · exact ((Dependency.stores_singleton_composite_spec
      [⟨[⟨⟨0, 0, false⟩, 5⟩], [⟨0, 0, false⟩], [0]⟩] ⟨0, 0, false⟩).1 rfl).2
  · have h := ((Dependency.stores_singleton_composite_spec
      [⟨[⟨⟨1, 1, true⟩, 3⟩, ⟨⟨1, 1, true⟩, 4⟩], [⟨1, 1, true⟩], []⟩] ⟨1, 1, true⟩).2.1 rfl)
    decide

/-! ## `ShadowArray::addShadowArrayMap` (Dependency.cpp, lines 8, 18-20) -/

/-- The process-wide `ShadowArray::shadowArray` map, keyed by source-array
identity; `std::map` keeps one entry per key. -/
abbrev ShadowMap := List (Nat × Nat)

/-- Lookup in the shadow map (identity comparison of arrays). -/
def lookupShadow : ShadowMap → Nat → Option Nat
  | [], _ => none
  | p :: rest, s => if p.1 = s then some p.2 else lookupShadow rest s

/-- `ShadowArray::addShadowArrayMap(source, target)` performs
`shadowArray[source] = target`: the existing entry for `source` is assigned
`target`, or a new entry is inserted. -/
def addShadowArrayMap : ShadowMap → Nat → Nat → ShadowMap
  | [], s, t => [(s, t)]
  | p :: rest, s, t =>
    if p.1 = s then (p.1, t) :: rest else p :: addShadowArrayMap rest s t

/-- C8 counterexample: the claim says a source's binding is never changed by a
later call, but `shadowArray[source] = target` overwrites: mapping source 0
to 1 and then to 2 leaves 0 bound to 2. -/
theorem addShadowArrayMap_rebind_cex :
    lookupShadow (addShadowArrayMap (addShadowArrayMap [] 0 1) 0 2) 0 = some 2 ∧
    ¬ lookupShadow (addShadowArrayMap (addShadowArrayMap [] 0 1) 0 2) 0 = some 1 := by
  decide

/-- C8 amended: `addShadowArrayMap(s, t)` unconditionally (re)binds `s` to `t`
— last write wins — while every other key's binding is preserved; the
write-once property therefore holds only for call sequences that never remap
an already-bound source to a different shadow array. -/
theorem addShadowArrayMap_lastWriteWins (m : ShadowMap) (s t k : Nat) :
    lookupShadow (addShadowArrayMap m s t) k =
      if k = s then some t else lookupShadow m k := by
  induction m with
  | nil =>
    by_cases hks : k = s
    · simp [addShadowArrayMap, lookupShadow, hks]
    · have hsk : ¬ s = k := fun h => hks h.symm
      simp [addShadowArrayMap, lookupShadow, hks, hsk]
  | cons p rest ih =>
    by_cases hp : p.1 = s
    · by_cases hpk : p.1 = k
      · have : k = s := by rw [← hpk, hp]
        simp [addShadowArrayMap, lookupShadow, hp, hpk, this]
      · have hks : ¬ k = s := by
          intro h
          exact hpk (by rw [hp, h])
        have hsk : ¬ s = k := fun h => hks h.symm
        simp [addShadowArrayMap, lookupShadow, hp, hpk, hks, hsk]
    · by_cases hpk : p.1 = k
      · have hks : ¬ k = s := by
          intro h
          exact hp (by rw [hpk, h])
        simp [addShadowArrayMap, lookupShadow, hp, hpk, hks]
      · simp [addShadowArrayMap, lookupShadow, hp, hpk, ih]

/-! ## `AllocationGraph` (Dependency.cpp, lines 288-355) -/

/-- An `AllocationNode`: its identity `nid` (the C++ object address), the
allocation it wraps, and its parents.  Modelled from the spec: the
`AllocationNode` class itself is declared in a header outside `src/`; per the
spec a node is `(allocation, parents : set<AllocationNode>)`, `addParent`
inserts and `isCurrentParent` tests membership. -/
structure ANode where
  nid : Nat
  alloc : Nat
  parents : List Nat
deriving DecidableEq, Repr

/-- The `AllocationGraph`: `allNodes` and `sinks` (by node identity), plus a
counter supplying fresh node identities for `new AllocationNode(...)`. -/
structure AGraph where
  allNodes : List ANode
  sinks : List Nat
  nextId : Nat
deriving DecidableEq, Repr

/-- The scan loop of `AllocationGraph::addNewEdge`: the first branch claims a
node for the target, the `else if` branch claims one for the source; the
early `break`s do not change the outcome. -/
def findST (nodes : List ANode) (source target : Nat) :
    Option ANode × Option ANode :=
  nodes.foldl
    (fun st n =>
      if st.2.isNone ∧ n.alloc = target then (st.1, some n)
      else if st.1.isNone ∧ n.alloc = source then (some n, st.2)
      else st)
    (none, none)

/-- `AllocationGraph::addNewEdge(source, target)`: missing source and target
nodes are created (a fresh target is pushed into `sinks`, and only then is
the source erased from `sinks`); finally the source is added to the target's
parents unless it is already one. -/
def addNewEdge (g : AGraph) (source target : Nat) : AGraph × Bool :=
  let st := findST g.allNodes source target
  let sNode : ANode :=
    match st.1 with
    | some n => n
    | none => ⟨g.nextId, source, []⟩
  let nodes1 : List ANode :=
    match st.1 with
    | some _ => g.allNodes
    | none => g.allNodes ++ [sNode]
  let next1 : Nat :=
    match st.1 with
    | some _ => g.nextId
    | none => g.nextId + 1
  let tNode : ANode :=
    match st.2 with
    | some n => n
    | none => ⟨next1, target, []⟩
  let nodes2 : List ANode :=
    match st.2 with
    | some _ => nodes1
    | none => nodes1 ++ [tNode]
  let next2 : Nat :=
    match st.2 with
    | some _ => next1
    | none => next1 + 1
  let sinks2 : List Nat :=
    match st.2 with
    | some _ => g.sinks
    | none => (g.sinks ++ [tNode.nid]).erase sNode.nid
  let ret : Bool := st.1.isNone || st.2.isNone
  let nodes3 : List ANode :=
    if ret || ! tNode.parents.contains sNode.nid then
      nodes2.map
        (fun n => if n.nid = tNode.nid then { n with parents := n.parents ++ [sNode.nid] } else n)
    else nodes2
  (⟨nodes3, sinks2, next2⟩, ret)

/-- `AllocationGraph::consumeSinkNode(allocation)`: the first sink whose node
wraps `allocation` is replaced by those of its parents not already in the
sink set.  (When no sink matches, the C++ dereferences an uninitialized
iterator; that precondition-violating case is modelled as a no-op.) -/
def consumeSinkNode (g : AGraph) (alloc : Nat) : AGraph :=
  let resolve : Nat → Option ANode := fun sid => g.allNodes.find? (fun n => n.nid = sid)
  match g.sinks.find?
      (fun sid => match resolve sid with
                  | some n => n.alloc = alloc
                  | none => false) with
  | none => g
  | some sid =>
    match resolve sid with
    | none => g
    | some node =>
      let sinks1 := node.parents.foldl
        (fun acc p => if p ∈ acc then acc else acc ++ [p]) g.sinks
      { g with sinks := sinks1.erase sid }

/-- The claimed invariant: a node is a sink exactly when no node of the graph
lists it as a parent. -/
def sinkInvariant (g : AGraph) : Prop :=
  ∀ v ∈ g.allNodes, (v.nid ∈ g.sinks ↔ ¬ ∃ w ∈ g.allNodes, v.nid ∈ w.parents)

/-- Structural well-formedness of the graph state: node identities are
distinct and below the fresh counter, parent references are below the
counter, and the sink list holds node identities without duplicates. -/
def WfGraph (g : AGraph) : Prop :=
  (g.allNodes.map ANode.nid).Nodup ∧
  (∀ n ∈ g.allNodes, n.nid < g.nextId) ∧
  (∀ n ∈ g.allNodes, ∀ p ∈ n.parents, p < g.nextId) ∧
  (∀ s ∈ g.sinks, ∃ n ∈ g.allNodes, s = n.nid) ∧
  g.sinks.Nodup

/-- Graphs reachable from the empty graph by `addNewEdge` calls whose target
allocation is not yet in the graph and differs from the source. -/
inductive ReachFresh : AGraph → Prop where
  | base : ReachFresh ⟨[], [], 0⟩
  | step (g : AGraph) (s t : Nat) (hg : ReachFresh g)
      (hfresh : ∀ n ∈ g.allNodes, n.alloc ≠ t) (hst : s ≠ t) :
      ReachFresh (addNewEdge g s t).1

theorem foldST_fixed {t s : Nat} {nodes : List ANode} (w : ANode)
    (hfresh : ∀ n ∈ nodes, n.alloc ≠ t) :
    nodes.foldl
      (fun st n =>
        if st.2.isNone ∧ n.alloc = t then (st.1, some n)
        else if st.1.isNone ∧ n.alloc = s then (some n, st.2)
        else st)
      ((some w, none) : Option ANode × Option ANode) = (some w, none) := by
  induction nodes with
  | nil => rfl
  | cons n rest ih =>
    have hn : ¬ n.alloc = t := hfresh n (List.mem_cons_self _ _)
    simp only [List.foldl_cons, Option.isNone_some, Option.isNone_none, hn, and_false,
      false_and, if_false, and_true]
    exact ih (fun m hm => hfresh m (List.mem_cons_of_mem _ hm))

theorem findST_fresh {t s : Nat} {nodes : List ANode}
    (hfresh : ∀ n ∈ nodes, n.alloc ≠ t) :
    findST nodes s t = (nodes.find? (fun n => n.alloc = s), none) := by
  induction nodes with
  | nil => rfl
  | cons n rest ih =>
    have hn : ¬ n.alloc = t := hfresh n (List.mem_cons_self _ _)
    have hrest : ∀ m ∈ rest, m.alloc ≠ t := fun m hm => hfresh m (List.mem_cons_of_mem _ hm)
    unfold findST
    rw [List.foldl_cons]
    by_cases hs : n.alloc = s
    · rw [if_neg (fun h => hn h.2), if_pos ⟨rfl, hs⟩, foldST_fixed n hrest]
      simp [List.find?, hs]
    · rw [if_neg (fun h => hn h.2), if_neg (fun h => hs h.2)]
      have hih := ih hrest
      unfold findST at hih
      rw [hih]
      simp [List.find?, hs]

theorem addNewEdge_fresh_someSource {g : AGraph} {s t : Nat} {w : ANode}
    (hfresh : ∀ n ∈ g.allNodes, n.alloc ≠ t)
    (hw : g.allNodes.find? (fun n => n.alloc = s) = some w)
    (hnid : ∀ n ∈ g.allNodes, n.nid ≠ g.nextId) :
    (addNewEdge g s t).1 =
      ⟨g.allNodes ++ [⟨g.nextId, t, [w.nid]⟩],
        (g.sinks ++ [g.nextId]).erase w.nid, g.nextId + 1⟩ := by
  unfold addNewEdge
  rw [findST_fresh hfresh, hw]
  simp only [Option.isNone_some, Option.isNone_none, Bool.false_or, if_true, Bool.true_or]
  congr 1
  rw [List.map_append]
  congr 1
  · rw [List.map_congr_left, List.map_id]
    intro n hn
    rw [if_neg (hnid n hn)]
    rfl
  · simp

theorem addNewEdge_fresh_noneSource {g : AGraph} {s t : Nat}
    (hfresh : ∀ n ∈ g.allNodes, n.alloc ≠ t)
    (hw : g.allNodes.find? (fun n => n.alloc = s) = none)
    (hnid : ∀ n ∈ g.allNodes, n.nid ≠ g.nextId + 1) :
    (addNewEdge g s t).1 =
      ⟨g.allNodes ++ [⟨g.nextId, s, []⟩, ⟨g.nextId + 1, t, [g.nextId]⟩],
        (g.sinks ++ [g.nextId + 1]).erase g.nextId, g.nextId + 2⟩ := by
  unfold addNewEdge
  rw [findST_fresh hfresh, hw]
  simp only [Option.isNone_none, Bool.true_or, if_true]
  congr 1
  rw [List.append_assoc, List.map_append]
  have h2 : g.nextId ≠ g.nextId + 1 := Nat.ne_of_lt (Nat.lt_succ_self _)
  congr 1
  · rw [List.map_congr_left, List.map_id]
    intro n hn
    rw [if_neg (hnid n hn)]
    rfl
  · simp [h2]

theorem wf_inv_step_some {g : AGraph} {s t : Nat} {w : ANode}
    (hwf : WfGraph g) (hinv : sinkInvariant g)
    (hfresh : ∀ n ∈ g.allNodes, n.alloc ≠ t)
    (hw : g.allNodes.find? (fun n => n.alloc = s) = some w) :
    WfGraph (addNewEdge g s t).1 ∧ sinkInvariant (addNewEdge g s t).1 := by
  obtain ⟨hnd, hlt, hplt, hsid, hsnd⟩ := hwf
  have hwmem : w ∈ g.allNodes := List.mem_of_find?_eq_some hw
  have hwlt : w.nid < g.nextId := hlt w hwmem
  have hnid : ∀ n ∈ g.allNodes, n.nid ≠ g.nextId := fun n hn => Nat.ne_of_lt (hlt n hn)
  rw [addNewEdge_fresh_someSource hfresh hw hnid]
  have hsinks : (g.sinks ++ [g.nextId]).erase w.nid = g.sinks.erase w.nid ++ [g.nextId] := by
    by_cases hm : w.nid ∈ g.sinks
    · rw [List.erase_append_left _ hm]
    · rw [List.erase_append_right _ hm, List.erase_of_not_mem hm]
      have : g.nextId ≠ w.nid := fun h => Nat.ne_of_lt hwlt h.symm
      simp [List.erase_cons, this]
  have hsub : ∀ x ∈ g.sinks.erase w.nid, x ∈ g.sinks := fun x hx => List.mem_of_mem_erase hx
  have hNnotS : g.nextId ∉ g.sinks := by
    intro h
    rcases hsid _ h with ⟨n, hn, he⟩
    exact hnid n hn he.symm
  have hNnotSe : g.nextId ∉ g.sinks.erase w.nid := fun h => hNnotS (hsub _ h)
  constructor
  · refine ⟨?_, ?_, ?_, ?_, ?_⟩
    · rw [List.map_append, List.nodup_append]
      refine ⟨hnd, by simp, ?_⟩
      intro x hx
      simp only [List.map_cons, List.map_nil, List.mem_cons, List.not_mem_nil, or_false]
      simp only [List.mem_map] at hx
      rcases hx with ⟨n, hn, he⟩
      intro hcon
      exact hnid n hn (by rw [he, hcon])
    · intro n hn
      rcases List.mem_append.mp hn with h | h
      · exact Nat.lt_succ_of_lt (hlt n h)
      · simp only [List.mem_cons, List.not_mem_nil, or_false] at h
        subst h
        exact Nat.lt_succ_self _
    · intro n hn p hp
      rcases List.mem_append.mp hn with h | h
      · exact Nat.lt_succ_of_lt (hplt n h p hp)
      · simp only [List.mem_cons, List.not_mem_nil, or_false] at h
        subst h
        simp only [List.mem_cons, List.not_mem_nil, or_false] at hp
        subst hp
        exact Nat.lt_succ_of_lt hwlt
    · intro x hx
      rw [hsinks] at hx
      rcases List.mem_append.mp hx with h | h
      · rcases hsid x (hsub x h) with ⟨n, hn, he⟩
        exact ⟨n, List.mem_append_left _ hn, he⟩
      · simp only [List.mem_cons, List.not_mem_nil, or_false] at h
        subst h
        exact ⟨⟨g.nextId, t, [w.nid]⟩, List.mem_append_right _ (by simp), rfl⟩
    · rw [hsinks, List.nodup_append]
      refine ⟨hsnd.erase _, by simp, ?_⟩
      intro x hx
      simp only [List.mem_cons, List.not_mem_nil, or_false]
      intro hcon
      subst hcon
      exact hNnotSe hx
  · intro v hv
    rw [hsinks]
    have hmemnew : ∀ x, (∃ u ∈ g.allNodes ++ [⟨g.nextId, t, [w.nid]⟩], x ∈ u.parents) ↔
        ((∃ u ∈ g.allNodes, x ∈ u.parents) ∨ x = w.nid) := by
      intro x
      constructor
      · rintro ⟨u, hu, hx⟩
        rcases List.mem_append.mp hu with h | h
        · exact Or.inl ⟨u, h, hx⟩
        · simp only [List.mem_cons, List.not_mem_nil, or_false] at h
          subst h
          simp only [List.mem_cons, List.not_mem_nil, or_false] at hx
          exact Or.inr hx
      · rintro (⟨u, hu, hx⟩ | hx)
        · exact ⟨u, List.mem_append_left _ hu, hx⟩
        · exact ⟨⟨g.nextId, t, [w.nid]⟩, List.mem_append_right _ (by simp), by simp [hx]⟩
    rcases List.mem_append.mp hv with hvold | hvnew
    · have hvlt : v.nid < g.nextId := hlt v hvold
      have hvne : v.nid ≠ g.nextId := Nat.ne_of_lt hvlt
      have hlhs : v.nid ∈ g.sinks.erase w.nid ++ [g.nextId] ↔ v.nid ∈ g.sinks.erase w.nid := by
        simp [List.mem_append, hvne]
      rw [hlhs, hsnd.mem_erase_iff, hmemnew]
      by_cases hvw : v.nid = w.nid
      · constructor
        · rintro ⟨hne, _⟩
          exact absurd hvw hne
        · intro hcon
          exact absurd (Or.inr hvw) hcon
      · have := hinv v hvold
        constructor
        · rintro ⟨_, hvS⟩
          rw [this] at hvS
          rintro (h | h)
          · exact hvS h
          · exact hvw h
        · intro h
          refine ⟨hvw, ?_⟩
          rw [this]
          intro hcon
          exact h (Or.inl hcon)
    · simp only [List.mem_cons, List.not_mem_nil, or_false] at hvnew
      subst hvnew
      simp only
      rw [hmemnew]
      constructor
      · intro _
        rintro (⟨u, hu, hx⟩ | hx)
        · exact Nat.ne_of_lt (hplt u hu _ hx) rfl
        · exact Nat.ne_of_lt hwlt (by rw [hx])
      · intro _
        exact List.mem_append_right _ (by simp)

theorem wf_inv_step_none {g : AGraph} {s t : Nat}
    (hwf : WfGraph g) (hinv : sinkInvariant g)
    (hfresh : ∀ n ∈ g.allNodes, n.alloc ≠ t)
    (hw : g.allNodes.find? (fun n => n.alloc = s) = none) :
    WfGraph (addNewEdge g s t).1 ∧ sinkInvariant (addNewEdge g s t).1 := by
  obtain ⟨hnd, hlt, hplt, hsid, hsnd⟩ := hwf
  have hnid : ∀ n ∈ g.allNodes, n.nid ≠ g.nextId + 1 :=
    fun n hn => Nat.ne_of_lt (Nat.lt_succ_of_lt (hlt n hn))
  rw [addNewEdge_fresh_noneSource hfresh hw hnid]
  have hNnotS : g.nextId ∉ g.sinks := by
    intro h
    rcases hsid _ h with ⟨n, hn, he⟩
    exact Nat.ne_of_lt (hlt n hn) he.symm
  have hsinks : (g.sinks ++ [g.nextId + 1]).erase g.nextId = g.sinks ++ [g.nextId + 1] := by
    rw [List.erase_of_not_mem]
    intro h
    rcases List.mem_append.mp h with h | h
    · exact hNnotS h
    · simp only [List.mem_cons, List.not_mem_nil, or_false] at h
      exact Nat.ne_of_lt (Nat.lt_succ_self _) h
  rw [hsinks]
  have hS1 : g.nextId + 1 ∉ g.sinks := by
    intro h
    rcases hsid _ h with ⟨n, hn, he⟩
    exact hnid n hn he.symm
  have hmemnew : ∀ x, (∃ u ∈ g.allNodes ++ [⟨g.nextId, s, []⟩, ⟨g.nextId + 1, t, [g.nextId]⟩],
      x ∈ u.parents) ↔ ((∃ u ∈ g.allNodes, x ∈ u.parents) ∨ x = g.nextId) := by
    intro x
    constructor
    · rintro ⟨u, hu, hx⟩
      rcases List.mem_append.mp hu with h | h
      · exact Or.inl ⟨u, h, hx⟩
      · simp only [List.mem_cons, List.not_mem_nil, or_false] at h
        rcases h with h | h
        · subst h
          simp at hx
        · subst h
          simp only [List.mem_cons, List.not_mem_nil, or_false] at hx
          exact Or.inr hx
    · rintro (⟨u, hu, hx⟩ | hx)
      · exact ⟨u, List.mem_append_left _ hu, hx⟩
      · exact ⟨⟨g.nextId + 1, t, [g.nextId]⟩, List.mem_append_right _ (by simp), by simp [hx]⟩
  constructor
  · refine ⟨?_, ?_, ?_, ?_, ?_⟩
    · rw [List.map_append, List.nodup_append]
      refine ⟨hnd, ?_, ?_⟩
      · simp only [List.map_cons, List.map_nil]
        refine List.nodup_cons.mpr ⟨?_, List.nodup_singleton _⟩
        simp only [List.mem_cons, List.not_mem_nil, or_false]
        exact Nat.ne_of_lt (Nat.lt_succ_self _)
      · intro x hx
        simp only [List.mem_map] at hx
        rcases hx with ⟨n, hn, he⟩
        simp only [List.map_cons, List.map_nil, List.mem_cons, List.not_mem_nil, or_false]
        rintro (hcon | hcon)
        · exact Nat.ne_of_lt (hlt n hn) (he.trans hcon)
        · exact hnid n hn (he.trans hcon)
    · intro n hn
      rcases List.mem_append.mp hn with h | h
      · exact Nat.lt_succ_of_lt (Nat.lt_succ_of_lt (hlt n h))
      · simp only [List.mem_cons, List.not_mem_nil, or_false] at h
        rcases h with h | h
        · subst h
          show g.nextId < g.nextId + 2
          omega
        · subst h
          show g.nextId + 1 < g.nextId + 2
          omega
    · intro n hn p hp
      rcases List.mem_append.mp hn with h | h
      · exact Nat.lt_succ_of_lt (Nat.lt_succ_of_lt (hplt n h p hp))
      · simp only [List.mem_cons, List.not_mem_nil, or_false] at h
        rcases h with h | h
        · subst h
          simp at hp
        · subst h
          simp only [List.mem_cons, List.not_mem_nil, or_false] at hp
          subst hp
          show g.nextId < g.nextId + 2
          omega
    · intro x hx
      rcases List.mem_append.mp hx with h | h
      · rcases hsid x h with ⟨n, hn, he⟩
        exact ⟨n, List.mem_append_left _ hn, he⟩
      · simp only [List.mem_cons, List.not_mem_nil, or_false] at h
        subst h
        exact ⟨⟨g.nextId + 1, t, [g.nextId]⟩, List.mem_append_right _ (by simp), rfl⟩
    · rw [List.nodup_append]
      refine ⟨hsnd, by simp, ?_⟩
      intro x hx
      simp only [List.mem_cons, List.not_mem_nil, or_false]
      intro hcon
      subst hcon
      exact hS1 hx
  · intro v hv
    rcases List.mem_append.mp hv with hvold | hvnew
    · have hvlt : v.nid < g.nextId := hlt v hvold
      have hlhs : v.nid ∈ g.sinks ++ [g.nextId + 1] ↔ v.nid ∈ g.sinks := by
        simp [List.mem_append, Nat.ne_of_lt (Nat.lt_succ_of_lt hvlt)]
      rw [hlhs, hmemnew, hinv v hvold]
      constructor
      · intro h
        rintro (hc | hc)
        · exact h hc
        · exact Nat.ne_of_lt hvlt hc
      · intro h hc
        exact h (Or.inl hc)
    · simp only [List.mem_cons, List.not_mem_nil, or_false] at hvnew
      rcases hvnew with h | h
      · subst h
        simp only
        rw [hmemnew]
        constructor
        · intro hc
          exfalso
          rcases List.mem_append.mp hc with hc | hc
          · exact hNnotS hc
          · simp only [List.mem_cons, List.not_mem_nil, or_false] at hc
            omega
        · intro hc
          exfalso
          exact hc (Or.inr rfl)
      · subst h
        simp only
        rw [hmemnew]
        constructor
        · intro _
          rintro (⟨u, hu, hx⟩ | hx)
          · exact Nat.ne_of_lt (Nat.lt_succ_of_lt (hplt u hu _ hx)) rfl
          · omega
        · intro _
          exact List.mem_append_right _ (by simp)

/-- C2 amended: the sink invariant — `v ∈ sinks` iff no node lists `v` as a
parent — holds for every graph built from the empty graph by `addNewEdge`
calls whose target allocation is new to the graph and differs from the
source.  (When the target already has a node, `addNewEdge` skips the sink
bookkeeping and the source may stay a sink while becoming a parent; and
`consumeSinkNode` deliberately moves a consumed sink's parents into the sink
set.  See the counterexample.) -/
theorem AllocationGraph.sink_invariant_freshTargets (g : AGraph)
    (h : ReachFresh g) : WfGraph g ∧ sinkInvariant g := by
  induction h with
  | base =>
    constructor
    · refine ⟨by simp, by simp, by simp, by simp, by simp⟩
    · intro v hv
      simp at hv
  | step g s t hg hfresh hst ih =>
    cases hw : g.allNodes.find? (fun n => n.alloc = s) with
    | some w => exact wf_inv_step_some ih.1 ih.2 hfresh hw
    | none => exact wf_inv_step_none ih.1 ih.2 hfresh hw

theorem AllocationGraph.sink_invariant_freshTargets_witness :
    sinkInvariant (addNewEdge ⟨[], [], 0⟩ 0 1).1 :=
  (AllocationGraph.sink_invariant_freshTargets (addNewEdge ⟨[], [], 0⟩ 0 1).1
    (ReachFresh.step ⟨[], [], 0⟩ 0 1 ReachFresh.base (by simp) (by decide))).2

/-- C2 counterexample: after `addNewEdge(A, B)` then `addNewEdge(B, A)` —
both allocations already present in the second call — node `B` (identity 1)
is still in `sinks` although node `A` now lists it as a parent, so the
claimed iff fails on a graph reachable by `addNewEdge` calls alone. -/
theorem AllocationGraph.sink_invariant_cex :
    ¬ sinkInvariant (addNewEdge (addNewEdge ⟨[], [], 0⟩ 0 1).1 1 0).1 := by
  intro h
  have hv := h ⟨1, 1, [0]⟩ (by decide)
  have h1 : (1 : Nat) ∈ (addNewEdge (addNewEdge ⟨[], [], 0⟩ 0 1).1 1 0).1.sinks := by decide
  have h2 : ∃ w ∈ (addNewEdge (addNewEdge ⟨[], [], 0⟩ 0 1).1 1 0).1.allNodes,
      (1 : Nat) ∈ w.parents := ⟨⟨0, 0, [1]⟩, by decide, by decide⟩
  exact (hv.mp h1) h2

/-! ## `ITree::remove` and the subsumption table (ITree.cpp, lines 2373-2411) -/

/-- The data of an `ITreeNode` that `ITree::remove` consults: its `nodeId`
(program point) and its `isSubsumed` flag.  The table entry built by
`SubsumptionTableEntry(node)` is identified with this data, keyed by
`nodeId`. -/
structure RNode where
  nodeId : Nat
  isSubsumed : Bool
deriving DecidableEq, Repr

/-- One ancestor on the path from the removed leaf to the root: its node data
and whether its other child pointer (the one not on the removed path) is
null.  The do-while loop in `remove` continues into an ancestor exactly when,
after the just-deleted child pointer is nulled, both children are null —
i.e. when the other child is null. -/
structure Anc where
  node : RNode
  siblingNull : Bool
deriving DecidableEq, Repr

/-- The subsumption table: `nodeId → list of entries`, insertion ordered. -/
abbrev Table := Nat → List RNode

/-- `ITree::store(subItem)`: `subsumptionTable[subItem->nodeId].push_back`. -/
def tableStore (t : Table) (n : RNode) : Table :=
  fun k => if k = n.nodeId then t k ++ [n] else t k

/-- `ITree::remove(node)`: the do-while loop.  Each visited node is tabled
unless subsumed, then deleted and its parent's child pointer nulled; the walk
continues into the parent exactly while the parent's other child is null.
Returns the final table and the list of deleted nodes in deletion order. -/
def removeWalk : RNode → List Anc → Table → Table × List RNode
  | n, [], t => ((if n.isSubsumed then t else tableStore t n), [n])
  | n, a :: rest, t =>
    if a.siblingNull then
      ((removeWalk a.node rest (if n.isSubsumed then t else tableStore t n)).1,
        n :: (removeWalk a.node rest (if n.isSubsumed then t else tableStore t n)).2)
    else ((if n.isSubsumed then t else tableStore t n), [n])

theorem tableStore_step (n : RNode) (t : Table) (k : Nat) :
    (if n.isSubsumed then t else tableStore t n) k =
      t k ++ (if (!n.isSubsumed && decide (n.nodeId = k)) = true then [n] else []) := by
  by_cases hs : n.isSubsumed
  · simp [hs]
  · by_cases hk : n.nodeId = k
    · subst hk
      simp [tableStore, hs]
    · have hk2 : ¬ k = n.nodeId := fun h => hk h.symm
      simp [tableStore, hs, hk, hk2]

theorem removeWalk_table_eq (n : RNode) (ancs : List Anc) (t : Table) (k : Nat) :
    (removeWalk n ancs t).1 k =
      t k ++ ((removeWalk n ancs t).2.filter
        (fun m => !m.isSubsumed && m.nodeId = k)) := by
  induction ancs generalizing n t with
  | nil =>
    show (if n.isSubsumed then t else tableStore t n) k =
      t k ++ List.filter (fun m => !m.isSubsumed && m.nodeId = k) [n]
    rw [tableStore_step, List.filter_singleton, Bool.cond_eq_ite]
  | cons a rest ih =>
    have hrw : removeWalk n (a :: rest) t =
        if a.siblingNull then
          ((removeWalk a.node rest (if n.isSubsumed then t else tableStore t n)).1,
            n :: (removeWalk a.node rest (if n.isSubsumed then t else tableStore t n)).2)
        else ((if n.isSubsumed then t else tableStore t n), [n]) := rfl
    by_cases ha : a.siblingNull
    · rw [hrw, if_pos ha]
      show (removeWalk a.node rest (if n.isSubsumed then t else tableStore t n)).1 k =
        t k ++ List.filter (fun m => !m.isSubsumed && m.nodeId = k)
          (n :: (removeWalk a.node rest (if n.isSubsumed then t else tableStore t n)).2)
      rw [ih, tableStore_step, List.filter_cons]
      by_cases hp : (!n.isSubsumed && decide (n.nodeId = k)) = true
      · simp [hp]
      · simp [hp]
    · rw [hrw, if_neg ha]
      show (if n.isSubsumed then t else tableStore t n) k =
        t k ++ List.filter (fun m => !m.isSubsumed && m.nodeId = k) [n]
      rw [tableStore_step, List.filter_singleton, Bool.cond_eq_ite]

theorem removeWalk_deleted_eq (n : RNode) (ancs : List Anc) (t : Table) :
    (removeWalk n ancs t).2 =
      n :: (ancs.takeWhile (fun a => a.siblingNull)).map Anc.node := by
  induction ancs generalizing n t with
  | nil => rfl
  | cons a rest ih =>
    have hrw : removeWalk n (a :: rest) t =
        if a.siblingNull then
          ((removeWalk a.node rest (if n.isSubsumed then t else tableStore t n)).1,
            n :: (removeWalk a.node rest (if n.isSubsumed then t else tableStore t n)).2)
        else ((if n.isSubsumed then t else tableStore t n), [n]) := rfl
    by_cases ha : a.siblingNull
    · rw [hrw, if_pos ha]
      show n :: (removeWalk a.node rest (if n.isSubsumed then t else tableStore t n)).2 =
        n :: ((a :: rest).takeWhile (fun a => a.siblingNull)).map Anc.node
      rw [ih, List.takeWhile_cons, if_pos ha, List.map_cons]
    · rw [hrw, if_neg ha]
      show [n] = n :: ((a :: rest).takeWhile (fun a => a.siblingNull)).map Anc.node
      rw [List.takeWhile_cons, if_neg ha, List.map_nil]

/-- C4: `ITree::remove(n)` on a leaf appends an entry for `n` to
`table[n.nodeId]` exactly when `n` is not marked subsumed; for every key the
old bucket is left in place and only appended to (no entry is removed or
replaced); and the nodes deleted by the upward walk are `n` followed by
precisely the maximal chain of successive ancestors whose other child is
already null (each ancestor's child pointer toward the walk having been
nulled before the check, modelled by `siblingNull`). -/
theorem ITree.remove_table_append_spec (n : RNode) (ancs : List Anc) (t : Table) :
    (∀ k, ∃ added, (removeWalk n ancs t).1 k = t k ++ added) ∧
    ((removeWalk n ancs t).1 n.nodeId =
      t n.nodeId ++ (if n.isSubsumed then [] else [n]) ++
        ((removeWalk n ancs t).2.drop 1).filter
          (fun m => !m.isSubsumed && m.nodeId = n.nodeId)) ∧
    ((removeWalk n ancs t).2 =
      n :: (ancs.takeWhile (fun a => a.siblingNull)).map Anc.node) := by
  refine ⟨fun k => ⟨_, removeWalk_table_eq n ancs t k⟩, ?_, removeWalk_deleted_eq n ancs t⟩
  rw [removeWalk_table_eq n ancs t n.nodeId, removeWalk_deleted_eq n ancs t]
  simp only [List.drop_succ_cons, List.drop_zero, List.filter_cons]
  by_cases hs : n.isSubsumed
  · simp [hs]
  · simp [hs, List.append_assoc]

/-- C10: every node deleted by the upward walk of a single `ITree::remove`
call — the leaf and each ancestor that had just lost both children — is
tabled under its own `nodeId` before deletion, unless it is marked
subsumed. -/
theorem ITree.remove_tables_deleted_ancestors (n : RNode) (ancs : List Anc)
    (t : Table) (m : RNode) (hm : m ∈ (removeWalk n ancs t).2)
    (hns : m.isSubsumed = false) :
    m ∈ (removeWalk n ancs t).1 m.nodeId := by
  rw [removeWalk_table_eq n ancs t m.nodeId]
  refine List.mem_append_right _ ?_
  rw [List.mem_filter]
  exact ⟨hm, by simp [hns]⟩

theorem ITree.remove_tables_deleted_ancestors_witness :
    (⟨9, false⟩ : RNode) ∈
      (removeWalk ⟨7, false⟩ [⟨⟨9, false⟩, true⟩] (fun _ => [])).1 9 :=
  ITree.remove_tables_deleted_ancestors ⟨7, false⟩ [⟨⟨9, false⟩, true⟩]
    (fun _ => []) ⟨9, false⟩ (by decide) rfl

/-! ## `ITree::checkCurrentStateSubsumption` (ITree.cpp, lines 2333-2371) -/

/-- The entry loop of `checkCurrentStateSubsumption`: entries of the bucket
are consulted in order until one subsumes the state.  Returns the result and
the list of entries actually consulted. -/
def consultEntries {E : Type} (subs : E → Bool) : List E → Bool × List E
  | [] => (false, [])
  | e :: rest =>
    if subs e then (true, [e])
    else ((consultEntries subs rest).1, e :: (consultEntries subs rest).2)

/-- `ITree::checkCurrentStateSubsumption`: returns immediately when the state
has no tree node or the current instruction's identity differs from the
node's `nodeId`; then looks up the bucket and returns false if it is empty;
otherwise consults the entries in order.  `subs` abstracts
`SubsumptionTableEntry::subsumed` for each entry. -/
def checkCurrentStateSubsumption {E : Type} (table : Nat → List E) (subs : E → Bool)
    (hasNode : Bool) (pcInstId nodeId : Nat) : Bool × List E :=
  if hasNode = false ∨ pcInstId ≠ nodeId then (false, [])
  else if (table nodeId).isEmpty then (false, [])
  else consultEntries subs (table nodeId)

theorem consultEntries_subset {E : Type} (subs : E → Bool) (l : List E) :
    ∀ e ∈ (consultEntries subs l).2, e ∈ l := by
  induction l with
  | nil => simp [consultEntries]
  | cons a rest ih =>
    intro e he
    by_cases ha : subs a
    · simp only [consultEntries, if_pos ha] at he
      simp only [List.mem_cons, List.not_mem_nil, or_false] at he
      exact he ▸ List.mem_cons_self _ _
    · simp only [consultEntries, if_neg ha] at he
      rcases List.mem_cons.mp he with h | h
      · exact h ▸ List.mem_cons_self _ _
      · exact List.mem_cons_of_mem _ (ih e h)

/-- C6: the subsumption check is gated on the instruction identity: when the
state's current instruction is not the node's `nodeId` (or there is no node)
the call returns false having consulted no table entry; an empty bucket also
yields false with no entry consulted; and every entry consulted comes from
the bucket of the matching `nodeId`, so entries are consulted only when the
identity matches. -/
theorem ITree.checkCurrentStateSubsumption_gate {E : Type} (table : Nat → List E)
    (subs : E → Bool) (hasNode : Bool) (pcInstId nodeId : Nat) :
    (pcInstId ≠ nodeId →
      checkCurrentStateSubsumption table subs hasNode pcInstId nodeId = (false, [])) ∧
    (table nodeId = [] →
      checkCurrentStateSubsumption table subs hasNode pcInstId nodeId = (false, [])) ∧
    ((checkCurrentStateSubsumption table subs hasNode pcInstId nodeId).2 ≠ [] →
      hasNode = true ∧ pcInstId = nodeId) ∧
    (∀ e ∈ (checkCurrentStateSubsumption table subs hasNode pcInstId nodeId).2,
      e ∈ table nodeId) := by
  refine ⟨?_, ?_, ?_, ?_⟩
  · intro hne
    unfold checkCurrentStateSubsumption
    rw [if_pos (Or.inr hne)]
  · intro hempty
    unfold checkCurrentStateSubsumption
    by_cases hg : hasNode = false ∨ pcInstId ≠ nodeId
    · rw [if_pos hg]
    · rw [if_neg hg, if_pos (by simp [hempty])]
  · intro hne
    unfold checkCurrentStateSubsumption at hne
    by_cases hg : hasNode = false ∨ pcInstId ≠ nodeId
    · rw [if_pos hg] at hne
      exact absurd rfl hne
    · push_neg at hg
      exact ⟨by simpa using hg.1, hg.2⟩
  · intro e he
    unfold checkCurrentStateSubsumption at he
    by_cases hg : hasNode = false ∨ pcInstId ≠ nodeId
    · rw [if_pos hg] at he
      simp at he
    · rw [if_neg hg] at he
      by_cases hempty : (table nodeId).isEmpty
      · rw [if_pos hempty] at he
        simp at he
      · rw [if_neg hempty] at he
        exact consultEntries_subset subs (table nodeId) e he

theorem ITree.checkCurrentStateSubsumption_gate_witness :
    checkCurrentStateSubsumption (fun _ => ([0] : List Nat)) (fun _ => true) true 0 1 =
      (false, []) :=
  (ITree.checkCurrentStateSubsumption_gate (fun _ => ([0] : List Nat))
    (fun _ => true) true 0 1).1 (by decide)

/-! ## `SubsumptionTableEntry::subsumed`, store phase (ITree.cpp, 1597-1687) -/

/-- The data of a `SubsumptionTableEntry` that drives the store-matching
phase of `subsumed`: whether an interpolant is present, and the keys of the
singleton and composite stores (`singletonStoreKeys`, `compositeStoreKeys`). -/
structure STEntry where
  hasInterpolant : Bool
  singletonKeys : List Nat
  compositeKeys : List Nat
deriving DecidableEq, Repr

/-- Modelled from the spec: `SubsumptionTableEntry::empty()` is declared in
the class header, which is not under src/.  Per the spec (§4.6 b) an entry
subsumes trivially when both the interpolant and the state equality
constraints are absent, so `empty()` holds when there is no interpolant and
both stores are empty. -/
def STEntry.entryEmpty (e : STEntry) : Bool :=
  !e.hasInterpolant && e.singletonKeys.isEmpty && e.compositeKeys.isEmpty

/-- The singleton-store loop of `subsumed`: iterate `singletonStoreKeys`; a
key the state's singleton store lacks fails the entry immediately. -/
def checkSingletonKeys (stSing : Nat → Option Nat) : List Nat → Bool
  | [] => true
  | k :: rest =>
    match stSing k with
    | none => false
    | some _ => checkSingletonKeys stSing rest

/-- The composite-store loop of `subsumed`: iterate `compositeStoreKeys`; a
key whose state-side value list is empty fails the entry immediately. -/
def checkCompositeKeys (stComp : Nat → List Nat) : List Nat → Bool
  | [] => true
  | k :: rest =>
    if (stComp k).isEmpty then false else checkCompositeKeys stComp rest

/-- `SubsumptionTableEntry::subsumed` up to the solver boundary: the empty
entry subsumes trivially; then the two store loops run, and only if both
succeed does control reach query construction, simplification and the solver
— abstracted by `solverPhase : (result, solver consulted)`.  The result pair
is `(subsumption result, whether the solver phase was reached)`. -/
def STEntry.subsumed (e : STEntry) (stSing : Nat → Option Nat)
    (stComp : Nat → List Nat) (solverPhase : Bool × Bool) : Bool × Bool :=
  if e.entryEmpty then (true, false)
  else if checkSingletonKeys stSing e.singletonKeys = false then (false, false)
  else if checkCompositeKeys stComp e.compositeKeys = false then (false, false)
  else solverPhase

theorem checkSingletonKeys_missing {stSing : Nat → Option Nat} {l : List Nat}
    {k : Nat} (hk : k ∈ l) (hmiss : stSing k = none) :
    checkSingletonKeys stSing l = false := by
  induction l with
  | nil => simp at hk
  | cons a rest ih =>
    rcases List.mem_cons.mp hk with h | h
    · subst h
      simp [checkSingletonKeys, hmiss]
    · unfold checkSingletonKeys
      cases stSing a with
      | none => rfl
      | some v => exact ih h

theorem checkCompositeKeys_missing {stComp : Nat → List Nat} {l : List Nat}
    {k : Nat} (hk : k ∈ l) (hmiss : stComp k = []) :
    checkCompositeKeys stComp l = false := by
  induction l with
  | nil => simp at hk
  | cons a rest ih =>
    rcases List.mem_cons.mp hk with h | h
    · subst h
      simp [checkCompositeKeys, hmiss]
    · unfold checkCompositeKeys
      by_cases ha : (stComp a).isEmpty
      · rw [if_pos ha]
      · rw [if_neg ha]
        exact ih h

theorem subsumed_fails_of_missing_singleton (e : STEntry)
    (stSing : Nat → Option Nat) (stComp : Nat → List Nat)
    (solverPhase : Bool × Bool) {k : Nat} (hk : k ∈ e.singletonKeys)
    (hmiss : stSing k = none) :
    e.subsumed stSing stComp solverPhase = (false, false) := by
  unfold STEntry.subsumed
  have hne : e.entryEmpty = false := by
    unfold STEntry.entryEmpty
    cases l : e.singletonKeys with
    | nil => rw [l] at hk; simp at hk
    | cons a rest => simp [l]
  rw [hne, if_neg Bool.false_ne_true,
    if_pos (checkSingletonKeys_missing hk hmiss)]

theorem subsumed_fails_of_missing_composite (e : STEntry)
    (stSing : Nat → Option Nat) (stComp : Nat → List Nat)
    (solverPhase : Bool × Bool) {k : Nat} (hk : k ∈ e.compositeKeys)
    (hmiss : stComp k = []) :
    e.subsumed stSing stComp solverPhase = (false, false) := by
  unfold STEntry.subsumed
  have hne : e.entryEmpty = false := by
    unfold STEntry.entryEmpty
    cases l : e.compositeKeys with
    | nil => rw [l] at hk; simp at hk
    | cons a rest => simp [l]
  rw [hne, if_neg Bool.false_ne_true]
  by_cases hs : checkSingletonKeys stSing e.singletonKeys = false
  · rw [if_pos hs]
  · rw [if_neg hs, if_pos (checkCompositeKeys_missing hk hmiss)]

/-- C7: during the check of a single table entry, if the state's singleton
store lacks a site listed in the entry's singleton store, or the state's
composite store has an empty value list for a site listed in the entry's
composite store, `subsumed` returns false for that entry with the solver
phase never reached (second component false), hence before any solver call
and without the state-mutating success path. -/
theorem SubsumptionTableEntry.subsumed_missing_site_fails (e : STEntry)
    (stSing : Nat → Option Nat) (stComp : Nat → List Nat)
    (solverPhase : Bool × Bool) :
    (∀ k ∈ e.singletonKeys, stSing k = none →
      e.subsumed stSing stComp solverPhase = (false, false)) ∧
    (∀ k ∈ e.compositeKeys, stComp k = [] →
      e.subsumed stSing stComp solverPhase = (false, false)) :=
  ⟨fun _ hk hmiss => subsumed_fails_of_missing_singleton e stSing stComp solverPhase hk hmiss,
   fun _ hk hmiss => subsumed_fails_of_missing_composite e stSing stComp solverPhase hk hmiss⟩

theorem SubsumptionTableEntry.subsumed_missing_site_fails_witness :
    STEntry.subsumed ⟨true, [4], []⟩ (fun _ => none) (fun _ => [])
      (true, true) = (false, false) :=
  (SubsumptionTableEntry.subsumed_missing_site_fails ⟨true, [4], []⟩
    (fun _ => none) (fun _ => []) (true, true)).1 4 (by decide) rfl

/-! ## `ITreeNode::getSingletonExpressions` / `getCompositeExpressions`
(ITree.cpp, lines 2702-2729) -/

/-- Abstraction of a `Dependency` object as the two store-expression maps the
getters `Dependency::getSingletonExpressions` / `getCompositeExpressions`
derive from it (with `interpolantValueOnly = false`). -/
structure DepExprMaps where
  sing : Nat → Option Nat
  comp : Nat → List Nat

/-- The part of an `ITreeNode` the state-side store getters consult: its own
dependency and the parent node's dependency (none at the root). -/
structure ITNode where
  ownDep : DepExprMaps
  parentDep : Option DepExprMaps

/-- `ITreeNode::getSingletonExpressions`: an empty map unless the node has a
parent, in which case the parent's dependency supplies the expressions. -/
def ITNode.getSingletonExpressions (n : ITNode) : Nat → Option Nat :=
  match n.parentDep with
  | none => fun _ => none
  | some d => d.sing

/-- `ITreeNode::getCompositeExpressions`: an empty map unless the node has a
parent, in which case the parent's dependency supplies the expressions. -/
def ITNode.getCompositeExpressions (n : ITNode) : Nat → List Nat :=
  match n.parentDep with
  | none => fun _ => []
  | some d => d.comp

/-- C9: the state-side store expressions used by the subsumption check come
from the parent node's dependency, not the current node's (two nodes with the
same parent dependency get identical maps, whatever their own dependencies);
a parentless (root) node yields empty maps; hence a table entry listing any
singleton or composite store site can never subsume the root node. -/
theorem ITreeNode.getExpressions_parent_spec :
    (∀ n m : ITNode, n.parentDep = m.parentDep →
      n.getSingletonExpressions = m.getSingletonExpressions ∧
      n.getCompositeExpressions = m.getCompositeExpressions) ∧
    (∀ n : ITNode, n.parentDep = none →
      (∀ k, n.getSingletonExpressions k = none) ∧
      (∀ k, n.getCompositeExpressions k = [])) ∧
    (∀ n : ITNode, n.parentDep = none →
      ∀ (e : STEntry) (solverPhase : Bool × Bool),
        e.singletonKeys ≠ [] ∨ e.compositeKeys ≠ [] →
        (e.subsumed n.getSingletonExpressions n.getCompositeExpressions
          solverPhase).1 = false) := by
  refine ⟨?_, ?_, ?_⟩
  · intro n m h
    constructor
    · unfold ITNode.getSingletonExpressions
      rw [h]
    · unfold ITNode.getCompositeExpressions
      rw [h]
  · intro n h
    constructor
    · intro k
      unfold ITNode.getSingletonExpressions
      rw [h]
    · intro k
      unfold ITNode.getCompositeExpressions
      rw [h]
  · intro n h e solverPhase hkeys
    have hsing : ∀ k, n.getSingletonExpressions k = none := by
      intro k
      unfold ITNode.getSingletonExpressions
      rw [h]
    have hcomp : ∀ k, n.getCompositeExpressions k = [] := by
      intro k
      unfold ITNode.getCompositeExpressions
      rw [h]
    rcases hkeys with hk | hk
    · cases l : e.singletonKeys with
      | nil => exact absurd l hk
      | cons a rest =>
        have := subsumed_fails_of_missing_singleton e n.getSingletonExpressions
          n.getCompositeExpressions solverPhase (k := a) (by rw [l]; exact List.mem_cons_self _ _)
          (hsing a)
        rw [this]
    · cases l : e.compositeKeys with
      | nil => exact absurd l hk
      | cons a rest =>
        have := subsumed_fails_of_missing_composite e n.getSingletonExpressions
          n.getCompositeExpressions solverPhase (k := a) (by rw [l]; exact List.mem_cons_self _ _)
          (hcomp a)
        rw [this]

theorem ITreeNode.getExpressions_parent_spec_witness :
    (STEntry.subsumed ⟨true, [4], []⟩
      (ITNode.getSingletonExpressions ⟨⟨fun _ => some 1, fun _ => [2]⟩, none⟩)
      (ITNode.getCompositeExpressions ⟨⟨fun _ => some 1, fun _ => [2]⟩, none⟩)
      (true, true)).1 = false :=
  ITreeNode.getExpressions_parent_spec.2.2 ⟨⟨fun _ => some 1, fun _ => [2]⟩, none⟩
    rfl ⟨true, [4], []⟩ (true, true) (Or.inl (by decide))

/-! ## `Inequality` and Fourier-Motzkin elimination (ITree.cpp, 955-1104,
1991-2036, 2109-2222) -/

/-- A linear term key.  `none` is the pseudo-term for constants (the source
uses the expression `Constant 0` as the shared key and stores the constant's
value as the coefficient); `some (a, i)` is the `i`-th distinct read term
over array `a` (arrays are what `getArrayFromConcatExpr` extracts and what
`normalize` compares against the focus variable). -/
abbrev TermKey := Option (Nat × Nat)

/-- The comparison kinds appearing in the Fourier-Motzkin pack (the
conjunct-collection phase only ever emits these four). -/
inductive IneqKind where
  | sle
  | slt
  | sge
  | sgt
deriving DecidableEq, Repr

/-- A coefficient map `term → int64`, as an association list (`std::map` with
one entry per key; all operations below preserve key uniqueness). -/
abbrev LinMap := List (TermKey × Int)

/-- The `Inequality` data structure: comparison kind with linear-term maps
for both sides. -/
structure Inequality where
  kind : IneqKind
  lhs : LinMap
  rhs : LinMap
deriving DecidableEq, Repr

/-- `SubsumptionTableEntry::isVariable` on a term key: constants are not
variables, read terms are. -/
def keyIsVariable (k : TermKey) : Bool := k.isSome

/-- `Inequality::getArrayFromConcatExpr`: the root array of a read term. -/
def keyArray : TermKey → Option Nat
  | none => none
  | some p => some p.1

/-- The focus test of `normalize`: `isVariable(e) && getArrayFromConcatExpr(e)
== focusVariable`. -/
def isFocusKey (focus : Nat) (k : TermKey) : Bool :=
  keyIsVariable k && keyArray k = some focus

/-- Modelled from the spec: `mergeTermToLinearExpression` is declared in the
missing class header; per the linear-term representation of the spec (§4.5)
it adds the coefficient into the entry of the given term, inserting the term
when absent. -/
def mergeTermToLinearExpression : LinMap → TermKey → Int → LinMap
  | [], k, c => [(k, c)]
  | (k0, c0) :: rest, k, c =>
    if k0 = k then (k0, c0 + c) :: rest
    else (k0, c0) :: mergeTermToLinearExpression rest k c

/-- The total coefficient a map assigns to a key (0 when absent; maps built
by `mergeTermToLinearExpression` hold each key at most once). -/
def coeffSum (m : LinMap) (k : TermKey) : Int :=
  ((m.filter (fun p => p.1 = k)).map Prod.snd).sum

/-- `Inequality::containsNonConstantExpr`. -/
def containsNonConstantExpr (m : LinMap) : Bool :=
  m.any (fun p => keyIsVariable p.1)

/-- The comparator reversal of `normalize` when dividing by a negative
coefficient. -/
def flipKind : IneqKind → IneqKind
  | .sle => .sge
  | .sge => .sle
  | .slt => .sgt
  | .sgt => .slt

/-- The running state of the two term-moving passes of `normalize`. -/
structure NormSt where
  newLhs : LinMap
  newRhs : LinMap
  c : Int
  flag : Bool

/-- One step of the pass over the lhs terms of `normalize`: focus terms are
merged into the new lhs (recording the coefficient), others are moved to the
new rhs negated. -/
def normLhsStep (focus : Nat) (s : NormSt) (p : TermKey × Int) : NormSt :=
  if isFocusKey focus p.1 then
    { s with newLhs := mergeTermToLinearExpression s.newLhs p.1 p.2,
             c := p.2, flag := true }
  else
    { s with newRhs := mergeTermToLinearExpression s.newRhs p.1 (0 - p.2) }

/-- One step of the pass over the rhs terms of `normalize`: focus terms are
moved to the new lhs negated (the coefficient is re-read from the merged
entry), others are merged into the new rhs. -/
def normRhsStep (focus : Nat) (s : NormSt) (p : TermKey × Int) : NormSt :=
  if isFocusKey focus p.1 then
    let l := mergeTermToLinearExpression s.newLhs p.1 (0 - p.2)
    { s with newLhs := l, c := coeffSum l p.1, flag := true }
  else
    { s with newRhs := mergeTermToLinearExpression s.newRhs p.1 p.2 }

/-- The tail of `Inequality::normalize` after the two term-moving passes:
division by the focus coefficient with comparator reversal, the literal-zero
insertions, and the final commit (the original inequality is returned
unchanged, with a false flag, when a side is empty). -/
def normalizeTail (iq : Inequality) (s2 : NormSt) : Inequality × Bool :=
  let dividing : Bool := decide (s2.c ≠ 1 ∧ s2.c ≠ 0)
  let l3 : LinMap :=
    if dividing then s2.newLhs.map (fun p => (p.1, p.2.tdiv s2.c)) else s2.newLhs
  let r3 : LinMap :=
    if dividing then s2.newRhs.map (fun p => (p.1, p.2.tdiv s2.c)) else s2.newRhs
  let k3 : IneqKind :=
    if dividing ∧ s2.c < 0 then flipKind iq.kind else iq.kind
  let l4 : LinMap :=
    if 1 ≤ l3.length ∧ containsNonConstantExpr l3 ∧ r3.length = 0 then l3
    else if 1 ≤ r3.length ∧ containsNonConstantExpr r3 ∧ l3.length = 0 then
      [(none, (0 : Int))]
    else l3
  let r4 : LinMap :=
    if 1 ≤ l3.length ∧ containsNonConstantExpr l3 ∧ r3.length = 0 then
      [(none, (0 : Int))]
    else r3
  if 0 < l4.length ∧ 0 < r4.length then (⟨k3, l4, r4⟩, s2.flag)
  else (iq, false)

/-- `Inequality::normalize(focusVariable)` (ITree.cpp, lines 2109-2222):
moves focus terms to the lhs (recording their coefficient) and the rest to
the rhs, then divides through by the focus coefficient with truncated
division (flipping the comparator when it is negative), inserts a literal
zero when a side empties, and commits only when both sides are nonempty,
returning whether the focus variable ended on the left. -/
def Inequality.normalize (focus : Nat) (iq : Inequality) : Inequality × Bool :=
  normalizeTail iq
    (iq.rhs.foldl (normRhsStep focus) (iq.lhs.foldl (normLhsStep focus) ⟨[], [], 0, false⟩))

/-- The pack record of `simplifyWithFourierMotzkin` STEP 2: the classified
inequality lists. -/
structure Packs where
  lePack : List Inequality
  gePack : List Inequality
  ltPack : List Inequality
  gtPack : List Inequality
  nonePack : List Inequality
deriving Repr

/-- `SubsumptionTableEntry::classify` (ITree.cpp, lines 1202-1222): an
inequality whose focus variable ended alone on the left goes to the pack of
its comparator; everything else goes to the none pack. -/
def classifyStep (p : Packs) (iqf : Inequality × Bool) : Packs :=
  if iqf.2 = false then { p with nonePack := p.nonePack ++ [iqf.1] }
  else if iqf.1.lhs.length = 1 then
    match iqf.1.kind with
    | .sle => { p with lePack := p.lePack ++ [iqf.1] }
    | .sge => { p with gePack := p.gePack ++ [iqf.1] }
    | .slt => { p with ltPack := p.ltPack ++ [iqf.1] }
    | .sgt => { p with gtPack := p.gtPack ++ [iqf.1] }
  else { p with nonePack := p.nonePack ++ [iqf.1] }

/-- STEP 2a-2b of `simplifyWithFourierMotzkin`: normalize each inequality of
the pack for the focus variable and classify it. -/
def classifyAll (focus : Nat) (pack : List Inequality) : Packs :=
  pack.foldl (fun p iq => classifyStep p (iq.normalize focus)) ⟨[], [], [], [], []⟩

/-- `Inequality::matchingLoop` (ITree.cpp, lines 2018-2036): all pairs, with
the first pack's rhs on the left and the second pack's rhs on the right. -/
def matchingLoop (k : IneqKind) (pack1 pack2 : List Inequality) : List Inequality :=
  pack1.foldr (fun i1 acc => pack2.map (fun i2 => Inequality.mk k i1.rhs i2.rhs) ++ acc) []

/-- `Inequality::match` (ITree.cpp, lines 1991-2016): lower/upper bound
pairing; the emitted comparator is non-strict only for the `x >= e2, x <= e1`
combination. -/
def matchPacks (lePack gePack ltPack gtPack : List Inequality) : List Inequality :=
  matchingLoop .sle gePack lePack ++ matchingLoop .slt gtPack lePack ++
  matchingLoop .slt gePack ltPack ++ matchingLoop .slt gtPack ltPack

/-- One round of STEP 2-3 of `simplifyWithFourierMotzkin` for a single bound
variable: normalize and classify every inequality, pair the bounds, and keep
the none pack. -/
def fourierMotzkinStep (focus : Nat) (pack : List Inequality) : List Inequality :=
  let p := classifyAll focus pack
  matchPacks p.lePack p.gePack p.ltPack p.gtPack ++ p.nonePack

/-- Integer semantics of a term key under an assignment of the read terms:
the constant pseudo-term denotes 1 (its coefficient carries the value). -/
def keyVal (sg : Nat × Nat → Int) : TermKey → Int
  | none => 1
  | some p => sg p

/-- Value of a linear-term map under an assignment. -/
def evalLin (sg : Nat × Nat → Int) (m : LinMap) : Int :=
  (m.map (fun p => p.2 * keyVal sg p.1)).sum

/-- Satisfaction of an `Inequality` under an assignment, reading the four
comparators as signed comparisons. -/
def Inequality.satisfied (sg : Nat × Nat → Int) (iq : Inequality) : Bool :=
  match iq.kind with
  | .sle => decide (evalLin sg iq.lhs ≤ evalLin sg iq.rhs)
  | .slt => decide (evalLin sg iq.lhs < evalLin sg iq.rhs)
  | .sge => decide (evalLin sg iq.rhs ≤ evalLin sg iq.lhs)
  | .sgt => decide (evalLin sg iq.rhs < evalLin sg iq.lhs)

/-- Satisfaction of a whole pack (conjunction). -/
def satPack (sg : Nat × Nat → Int) (pack : List Inequality) : Bool :=
  pack.all (Inequality.satisfied sg)

/-- Focus-freeness of a term map: no entry's key reads the focus array. -/
def focusFree (focus : Nat) (m : LinMap) : Prop :=
  ∀ p ∈ m, isFocusKey focus p.1 = false

/-- Moving a list of terms into a map negated (the lhs pass of `normalize`
for non-focus terms). -/
def moveNegAll (l : List (TermKey × Int)) (m0 : LinMap) : LinMap :=
  l.foldl (fun m p => mergeTermToLinearExpression m p.1 (0 - p.2)) m0

/-- Moving a list of terms into a map as-is (the rhs pass of `normalize` for
non-focus terms). -/
def movePosAll (l : List (TermKey × Int)) (m0 : LinMap) : LinMap :=
  l.foldl (fun m p => mergeTermToLinearExpression m p.1 p.2) m0

theorem merge_cons_eq (k0 : TermKey) (c0 c : Int) (rest : LinMap) :
    mergeTermToLinearExpression ((k0, c0) :: rest) k0 c = (k0, c0 + c) :: rest := by
  simp [mergeTermToLinearExpression]

theorem merge_cons_ne {k0 k : TermKey} (hp : ¬ k0 = k) (c0 c : Int) (rest : LinMap) :
    mergeTermToLinearExpression ((k0, c0) :: rest) k c =
      (k0, c0) :: mergeTermToLinearExpression rest k c := by
  simp [mergeTermToLinearExpression, hp]

theorem evalLin_cons (sg : Nat × Nat → Int) (k0 : TermKey) (c0 : Int) (rest : LinMap) :
    evalLin sg ((k0, c0) :: rest) = c0 * keyVal sg k0 + evalLin sg rest := by
  simp [evalLin]

theorem coeffSum_cons (k0 : TermKey) (c0 : Int) (rest : LinMap) (k2 : TermKey) :
    coeffSum ((k0, c0) :: rest) k2 =
      (if k0 = k2 then c0 else 0) + coeffSum rest k2 := by
  by_cases h : k0 = k2
  · simp [coeffSum, List.filter_cons, h]
  · simp [coeffSum, List.filter_cons, h]

theorem evalLin_merge (sg : Nat × Nat → Int) (m : LinMap) (k : TermKey) (c : Int) :
    evalLin sg (mergeTermToLinearExpression m k c) =
      evalLin sg m + c * keyVal sg k := by
  induction m with
  | nil => simp [mergeTermToLinearExpression, evalLin]
  | cons p rest ih =>
    obtain ⟨k0, c0⟩ := p
    by_cases hp : k0 = k
    · subst hp
      rw [merge_cons_eq, evalLin_cons, evalLin_cons]
      ring
    · rw [merge_cons_ne hp, evalLin_cons, evalLin_cons, ih]
      ring

theorem coeffSum_merge (m : LinMap) (k k2 : TermKey) (c : Int) :
    coeffSum (mergeTermToLinearExpression m k c) k2 =
      coeffSum m k2 + (if k = k2 then c else 0) := by
  induction m with
  | nil =>
    show coeffSum [(k, c)] k2 = coeffSum [] k2 + (if k = k2 then c else 0)
    rw [coeffSum_cons]
    by_cases hk : k = k2
    · simp [coeffSum, hk]
    · simp [coeffSum, hk]
  | cons p rest ih =>
    obtain ⟨k0, c0⟩ := p
    by_cases hp : k0 = k
    · subst hp
      rw [merge_cons_eq, coeffSum_cons, coeffSum_cons]
      by_cases hk : k0 = k2
      · simp [hk]
        ring
      · simp [hk]
    · rw [merge_cons_ne hp, coeffSum_cons, coeffSum_cons, ih]
      ring

theorem keysNodup_merge {m : LinMap} (k : TermKey) (c : Int)
    (h : (m.map Prod.fst).Nodup) :
    ((mergeTermToLinearExpression m k c).map Prod.fst).Nodup := by
  induction m with
  | nil => simp [mergeTermToLinearExpression]
  | cons p rest ih =>
    obtain ⟨k0, c0⟩ := p
    by_cases hp : k0 = k
    · subst hp
      rw [merge_cons_eq]
      simpa using h
    · simp only [List.map_cons, List.nodup_cons] at h
      have hrest := ih h.2
      rw [merge_cons_ne hp]
      simp only [List.map_cons, List.nodup_cons]
      refine ⟨?_, hrest⟩
      intro hcon
      have hor : k0 ∈ rest.map Prod.fst ∨ k0 = k := by
        clear h hrest ih
        induction rest with
        | nil =>
          simp only [mergeTermToLinearExpression, List.map_cons, List.map_nil,
            List.mem_cons, List.not_mem_nil, or_false] at hcon
          exact Or.inr hcon
        | cons q qrest ihq =>
          obtain ⟨kq, cq⟩ := q
          by_cases hq : kq = k
          · subst hq
            rw [merge_cons_eq] at hcon
            simp only [List.map_cons, List.mem_cons] at hcon
            rcases hcon with h2 | h2
            · exact Or.inl (by simp [h2])
            · exact Or.inl (List.mem_cons_of_mem _ h2)
          · rw [merge_cons_ne hq] at hcon
            simp only [List.map_cons, List.mem_cons] at hcon
            rcases hcon with h2 | h2
            · exact Or.inl (by simp [h2])
            · rcases ihq h2 with h3 | h3
              · exact Or.inl (List.mem_cons_of_mem _ h3)
              · exact Or.inr h3
      rcases hor with h2 | h2
      · exact h.1 h2
      · exact hp h2

theorem moveNegAll_eval (sg : Nat × Nat → Int) (l : List (TermKey × Int)) (m0 : LinMap) :
    evalLin sg (moveNegAll l m0) = evalLin sg m0 - evalLin sg l := by
  induction l generalizing m0 with
  | nil => simp [moveNegAll, evalLin]
  | cons p rest ih =>
    simp only [moveNegAll, List.foldl_cons] at ih ⊢
    rw [ih, evalLin_merge]
    simp only [evalLin, List.map_cons, List.sum_cons]
    ring

theorem movePosAll_eval (sg : Nat × Nat → Int) (l : List (TermKey × Int)) (m0 : LinMap) :
    evalLin sg (movePosAll l m0) = evalLin sg m0 + evalLin sg l := by
  induction l generalizing m0 with
  | nil => simp [movePosAll, evalLin]
  | cons p rest ih =>
    simp only [movePosAll, List.foldl_cons] at ih ⊢
    rw [ih, evalLin_merge]
    simp only [evalLin, List.map_cons, List.sum_cons]
    ring

theorem moveNegAll_coeffSum (l : List (TermKey × Int)) (m0 : LinMap) (k : TermKey) :
    coeffSum (moveNegAll l m0) k = coeffSum m0 k - coeffSum l k := by
  induction l generalizing m0 with
  | nil => simp [moveNegAll, coeffSum]
  | cons p rest ih =>
    simp only [moveNegAll, List.foldl_cons] at ih ⊢
    rw [ih, coeffSum_merge]
    simp only [coeffSum, List.filter_cons]
    by_cases hp : p.1 = k
    · simp [hp]
      ring
    · simp [hp, fun h : k = p.1 => hp h.symm]

theorem movePosAll_coeffSum (l : List (TermKey × Int)) (m0 : LinMap) (k : TermKey) :
    coeffSum (movePosAll l m0) k = coeffSum m0 k + coeffSum l k := by
  induction l generalizing m0 with
  | nil => simp [movePosAll, coeffSum]
  | cons p rest ih =>
    simp only [movePosAll, List.foldl_cons] at ih ⊢
    rw [ih, coeffSum_merge]
    simp only [coeffSum, List.filter_cons]
    by_cases hp : p.1 = k
    · simp [hp]
      ring
    · simp [hp, fun h : k = p.1 => hp h.symm]

theorem moveNegAll_keysNodup {l : List (TermKey × Int)} {m0 : LinMap}
    (h : (m0.map Prod.fst).Nodup) : ((moveNegAll l m0).map Prod.fst).Nodup := by
  induction l generalizing m0 with
  | nil => simpa [moveNegAll] using h
  | cons p rest ih =>
    simp only [moveNegAll, List.foldl_cons] at ih ⊢
    exact ih (keysNodup_merge _ _ h)

theorem movePosAll_keysNodup {l : List (TermKey × Int)} {m0 : LinMap}
    (h : (m0.map Prod.fst).Nodup) : ((movePosAll l m0).map Prod.fst).Nodup := by
  induction l generalizing m0 with
  | nil => simpa [movePosAll] using h
  | cons p rest ih =>
    simp only [movePosAll, List.foldl_cons] at ih ⊢
    exact ih (keysNodup_merge _ _ h)

theorem foldLhs_noFocus {focus : Nat} {l : List (TermKey × Int)}
    (L R : LinMap) (c : Int) (b : Bool) (hl : focusFree focus l) :
    l.foldl (normLhsStep focus) ⟨L, R, c, b⟩ = ⟨L, moveNegAll l R, c, b⟩ := by
  induction l generalizing R with
  | nil => simp [moveNegAll]
  | cons p rest ih =>
    have hp : isFocusKey focus p.1 = false := hl p (List.mem_cons_self _ _)
    have hrest : focusFree focus rest := fun q hq => hl q (List.mem_cons_of_mem _ hq)
    simp only [List.foldl_cons, normLhsStep, hp, Bool.false_eq_true, if_false]
    rw [ih _ hrest]
    simp [moveNegAll]

theorem foldRhs_noFocus {focus : Nat} {l : List (TermKey × Int)}
    (L R : LinMap) (c : Int) (b : Bool) (hl : focusFree focus l) :
    l.foldl (normRhsStep focus) ⟨L, R, c, b⟩ = ⟨L, movePosAll l R, c, b⟩ := by
  induction l generalizing R with
  | nil => simp [movePosAll]
  | cons p rest ih =>
    have hp : isFocusKey focus p.1 = false := hl p (List.mem_cons_self _ _)
    have hrest : focusFree focus rest := fun q hq => hl q (List.mem_cons_of_mem _ hq)
    simp only [List.foldl_cons, normRhsStep, hp, Bool.false_eq_true, if_false]
    rw [ih _ hrest]
    simp [movePosAll]

theorem coeffSum_map_tdiv {m : LinMap} (hnd : (m.map Prod.fst).Nodup)
    (a : Int) (k : TermKey) :
    coeffSum (m.map (fun p => (p.1, p.2.tdiv a))) k = (coeffSum m k).tdiv a := by
  induction m with
  | nil => simp [coeffSum, Int.zero_tdiv]
  | cons p rest ih =>
    simp only [List.map_cons, List.nodup_cons] at hnd
    by_cases hp : p.1 = k
    · have hknot : coeffSum rest k = 0 := by
        subst hp
        unfold coeffSum
        have : rest.filter (fun q => q.1 = p.1) = [] := by
          rw [List.filter_eq_nil]
          intro q hq
          simp only [decide_eq_true_eq]
          intro hcon
          exact hnd.1 (by rw [← hcon]; exact List.mem_map_of_mem Prod.fst hq)
        rw [this]
        simp
      have hknot2 : coeffSum (rest.map (fun p => (p.1, p.2.tdiv a))) k = 0 := by
        subst hp
        unfold coeffSum
        have : (rest.map (fun p => (p.1, p.2.tdiv a))).filter (fun q => q.1 = p.1) = [] := by
          rw [List.filter_eq_nil]
          intro q hq
          simp only [List.mem_map] at hq
          rcases hq with ⟨r, hr, hre⟩
          simp only [decide_eq_true_eq]
          intro hcon
          refine hnd.1 ?_
          rw [← hre] at hcon
          simp only at hcon
          rw [← hcon]
          exact List.mem_map_of_mem Prod.fst hr
        rw [this]
        simp
      simp only [coeffSum, List.map_cons, List.filter_cons, hp, decide_true_eq_true]
      simp only [coeffSum] at hknot hknot2
      simp [hknot, hknot2, hp]
    · simp only [coeffSum, List.map_cons, List.filter_cons]
      simp only [coeffSum] at ih
      simp [hp, ih hnd.2]

theorem coeffSum_zero_entry (k : TermKey) :
    coeffSum [(none, (0 : Int))] k = 0 := by
  rw [coeffSum_cons]
  simp [coeffSum]

theorem normalizeTail_focus (iq : Inequality) (k0 : TermKey) (a : Int) (R0 : LinMap)
    (hvar : keyIsVariable k0 = true) (ha : a ≠ 0)
    (hnd : (R0.map Prod.fst).Nodup) :
    ∃ R, normalizeTail iq ⟨[(k0, a)], R0, a, true⟩ =
        (⟨if a < 0 then flipKind iq.kind else iq.kind, [(k0, 1)], R⟩, true) ∧
      (∀ k, coeffSum R k = (coeffSum R0 k).tdiv a) ∧
      (a = 1 → ∀ sg, evalLin sg R = evalLin sg R0) := by
  have hnc : containsNonConstantExpr [(k0, (1 : Int))] = true := by
    simp [containsNonConstantExpr, hvar]
  by_cases ha1 : a = 1
  · subst ha1
    have hflip : ¬ ((1 : Int) < 0) := by omega
    by_cases hR : R0.length = 0
    · have hR0 : R0 = [] := List.length_eq_zero.mp hR
      subst hR0
      refine ⟨[(none, (0 : Int))], ?_, ?_, ?_⟩
      · simp [normalizeTail, hnc, hflip]
      · intro k
        rw [coeffSum_zero_entry]
        simp [coeffSum, Int.zero_tdiv]
      · intro _ sg
        simp [evalLin_cons, evalLin]
    · have hpos : 0 < R0.length := Nat.pos_of_ne_zero hR
      refine ⟨R0, ?_, ?_, ?_⟩
      · simp [normalizeTail, hnc, hflip, hR, hpos]
      · intro k
        rw [Int.tdiv_one]
      · intro _ sg
        rfl
  · have hdiv : decide (a ≠ 1 ∧ a ≠ 0) = true := by
      rw [decide_eq_true_eq]
      exact ⟨ha1, ha⟩
    by_cases hR : R0.length = 0
    · have hR0 : R0 = [] := List.length_eq_zero.mp hR
      subst hR0
      refine ⟨[(none, (0 : Int))], ?_, ?_, ?_⟩
      · simp [normalizeTail, hnc, hdiv, ha1, ha, Int.tdiv_self ha]
      · intro k
        rw [coeffSum_zero_entry]
        simp [coeffSum, Int.zero_tdiv]
      · intro h1
        exact absurd h1 ha1
    · have hpos : 0 < R0.length := Nat.pos_of_ne_zero hR
      refine ⟨R0.map (fun p => (p.1, p.2.tdiv a)), ?_, ?_, ?_⟩
      · simp [normalizeTail, hnc, hdiv, ha1, ha, Int.tdiv_self ha, hR, hpos]
      · intro k
        exact coeffSum_map_tdiv hnd a k
      · intro h1
        exact absurd h1 ha1

theorem normalizeTail_noFocus (iq : Inequality) (R0 : LinMap) :
    (normalizeTail iq ⟨[], R0, 0, false⟩).2 = false ∧
    ((normalizeTail iq ⟨[], R0, 0, false⟩).1 = iq ∨
      (normalizeTail iq ⟨[], R0, 0, false⟩).1 = ⟨iq.kind, [(none, 0)], R0⟩) := by
  have hdiv : decide ((0 : Int) ≠ 1 ∧ (0 : Int) ≠ 0) = false := by decide
  simp only [normalizeTail, hdiv, Bool.false_eq_true, if_false, false_and,
    List.length_nil]
  have hcondA : ¬ (1 ≤ 0 ∧ containsNonConstantExpr ([] : LinMap) = true ∧ R0.length = 0) :=
    fun h => by omega
  simp only [if_neg hcondA]
  by_cases hB : 1 ≤ R0.length ∧ containsNonConstantExpr R0 = true
  · have h3 : 1 ≤ R0.length ∧ containsNonConstantExpr R0 = true ∧ True :=
      ⟨hB.1, hB.2, trivial⟩
    simp only [if_pos h3]
    have h4 : 0 < List.length [((none : TermKey), (0 : Int))] ∧ 0 < R0.length :=
      ⟨by simp, by omega⟩
    simp only [if_pos h4]
    exact ⟨trivial, Or.inr trivial⟩
  · have h3 : ¬ (1 ≤ R0.length ∧ containsNonConstantExpr R0 = true ∧ True) :=
      fun h => hB ⟨h.1, h.2.1⟩
    simp only [if_neg h3]
    have h4 : ¬ (0 < List.length ([] : LinMap) ∧ 0 < R0.length) := by simp
    simp only [if_neg h4]
    exact ⟨trivial, Or.inl trivial⟩

theorem normalize_lhsFocus {focus : Nat} {k0 : TermKey} (iq : Inequality)
    {a : Int} {l1 l2 : LinMap}
    (hk0 : isFocusKey focus k0 = true) (ha : a ≠ 0)
    (hlhs : iq.lhs = l1 ++ (k0, a) :: l2)
    (h1 : focusFree focus l1) (h2 : focusFree focus l2)
    (hrhs : focusFree focus iq.rhs) :
    ∃ R, iq.normalize focus =
        (⟨if a < 0 then flipKind iq.kind else iq.kind, [(k0, 1)], R⟩, true) ∧
      (∀ k, coeffSum R k =
        (coeffSum iq.rhs k - coeffSum l2 k - coeffSum l1 k).tdiv a) ∧
      (a = 1 → ∀ sg, evalLin sg R =
        evalLin sg iq.rhs - evalLin sg l2 - evalLin sg l1) := by
  have hvar : keyIsVariable k0 = true := by
    unfold isFocusKey at hk0
    exact (Bool.and_eq_true _ _ |>.mp hk0).1
  unfold Inequality.normalize
  rw [hlhs, List.foldl_append, foldLhs_noFocus _ _ _ _ h1, List.foldl_cons]
  have hstep : normLhsStep focus ⟨[], moveNegAll l1 [], 0, false⟩ (k0, a) =
      ⟨[(k0, a)], moveNegAll l1 [], a, true⟩ := by
    simp [normLhsStep, hk0, mergeTermToLinearExpression]
  rw [hstep, foldLhs_noFocus _ _ _ _ h2, foldRhs_noFocus _ _ _ _ hrhs]
  have hnd : ((movePosAll iq.rhs (moveNegAll l2 (moveNegAll l1 []))).map Prod.fst).Nodup :=
    movePosAll_keysNodup (moveNegAll_keysNodup (moveNegAll_keysNodup (by simp)))
  rcases normalizeTail_focus iq k0 a
      (movePosAll iq.rhs (moveNegAll l2 (moveNegAll l1 []))) hvar ha hnd with
    ⟨R, heq, hcoeff, heval⟩
  refine ⟨R, heq, ?_, ?_⟩
  · intro k
    rw [hcoeff k, movePosAll_coeffSum, moveNegAll_coeffSum, moveNegAll_coeffSum]
    have h0 : coeffSum ([] : LinMap) k = 0 := by simp [coeffSum]
    rw [h0]
    ring_nf
  · intro h1a sg
    rw [heval h1a sg, movePosAll_eval, moveNegAll_eval, moveNegAll_eval]
    have h0 : evalLin sg ([] : LinMap) = 0 := by simp [evalLin]
    rw [h0]
    ring

theorem normalize_rhsFocus {focus : Nat} {k0 : TermKey} (iq : Inequality)
    {a : Int} {r1 r2 : LinMap}
    (hk0 : isFocusKey focus k0 = true) (ha : a ≠ 0)
    (hrhs : iq.rhs = r1 ++ (k0, a) :: r2)
    (h1 : focusFree focus r1) (h2 : focusFree focus r2)
    (hlhs : focusFree focus iq.lhs) :
    ∃ R, iq.normalize focus =
        (⟨if (0 - a) < 0 then flipKind iq.kind else iq.kind, [(k0, 1)], R⟩, true) ∧
      (∀ k, coeffSum R k =
        (coeffSum r2 k + coeffSum r1 k - coeffSum iq.lhs k).tdiv (0 - a)) := by
  have hvar : keyIsVariable k0 = true := by
    unfold isFocusKey at hk0
    exact (Bool.and_eq_true _ _ |>.mp hk0).1
  have hane : (0 - a) ≠ 0 := by omega
  unfold Inequality.normalize
  rw [foldLhs_noFocus _ _ _ _ hlhs, hrhs, List.foldl_append,
    foldRhs_noFocus _ _ _ _ h1, List.foldl_cons]
  have hstep : normRhsStep focus
      ⟨[], movePosAll r1 (moveNegAll iq.lhs []), 0, false⟩ (k0, a) =
      ⟨[(k0, 0 - a)], movePosAll r1 (moveNegAll iq.lhs []), 0 - a, true⟩ := by
    simp [normRhsStep, hk0, mergeTermToLinearExpression, coeffSum_cons, coeffSum]
  rw [hstep, foldRhs_noFocus _ _ _ _ h2]
  have hnd : ((movePosAll r2 (movePosAll r1 (moveNegAll iq.lhs []))).map Prod.fst).Nodup :=
    movePosAll_keysNodup (movePosAll_keysNodup (moveNegAll_keysNodup (by simp)))
  rcases normalizeTail_focus iq k0 (0 - a)
      (movePosAll r2 (movePosAll r1 (moveNegAll iq.lhs []))) hvar hane hnd with
    ⟨R, heq, hcoeff, _⟩
  refine ⟨R, heq, ?_⟩
  intro k
  rw [hcoeff k, movePosAll_coeffSum, movePosAll_coeffSum, moveNegAll_coeffSum]
  have h0 : coeffSum ([] : LinMap) k = 0 := by simp [coeffSum]
  rw [h0]
  ring_nf

theorem normalize_noFocus {focus : Nat} (iq : Inequality)
    (hlhs : focusFree focus iq.lhs) (hrhs : focusFree focus iq.rhs) :
    (iq.normalize focus).2 = false ∧
    ((iq.normalize focus).1 = iq ∨
      (iq.normalize focus).1 =
        ⟨iq.kind, [(none, 0)], movePosAll iq.rhs (moveNegAll iq.lhs [])⟩) := by
  unfold Inequality.normalize
  rw [foldLhs_noFocus _ _ _ _ hlhs, foldRhs_noFocus _ _ _ _ hrhs]
  exact normalizeTail_noFocus iq (movePosAll iq.rhs (moveNegAll iq.lhs []))

theorem coeffSum_append (m1 m2 : LinMap) (k : TermKey) :
    coeffSum (m1 ++ m2) k = coeffSum m1 k + coeffSum m2 k := by
  simp [coeffSum, List.filter_append]

theorem evalLin_append (sg : Nat × Nat → Int) (m1 m2 : LinMap) :
    evalLin sg (m1 ++ m2) = evalLin sg m1 + evalLin sg m2 := by
  simp [evalLin]

theorem evalLin_unit (sg : Nat × Nat → Int) (k0 : TermKey) :
    evalLin sg [(k0, (1 : Int))] = keyVal sg k0 := by
  simp [evalLin]

/-- C5: on an inequality whose focus variable occurs in exactly one term,
with combined coefficient `c ≠ 0` (`c = a` for a left occurrence, `c = -a`
for a right occurrence), `normalize` moves the focus term to the left-hand
side with coefficient exactly 1, divides every remaining coefficient on both
sides by `c` with truncated-toward-zero division (`Int.tdiv`), reverses the
comparison kind exactly when `c` is negative, and reports the focus variable
on the left; division by zero cannot occur since the division is guarded by
`c ∉ {0, 1}`. -/
theorem Inequality.normalize_focus_spec (focus : Nat) (k0 : TermKey)
    (iq : Inequality) (a : Int) (hk0 : isFocusKey focus k0 = true) (ha : a ≠ 0) :
    (∀ l1 l2, iq.lhs = l1 ++ (k0, a) :: l2 → focusFree focus l1 →
      focusFree focus l2 → focusFree focus iq.rhs →
      ∃ R, iq.normalize focus =
          (⟨if a < 0 then flipKind iq.kind else iq.kind, [(k0, 1)], R⟩, true) ∧
        ∀ k, isFocusKey focus k = false →
          coeffSum R k = (coeffSum iq.rhs k - coeffSum iq.lhs k).tdiv a) ∧
    (∀ r1 r2, iq.rhs = r1 ++ (k0, a) :: r2 → focusFree focus r1 →
      focusFree focus r2 → focusFree focus iq.lhs →
      ∃ R, iq.normalize focus =
          (⟨if (0 - a) < 0 then flipKind iq.kind else iq.kind, [(k0, 1)], R⟩, true) ∧
        ∀ k, isFocusKey focus k = false →
          coeffSum R k = (coeffSum iq.rhs k - coeffSum iq.lhs k).tdiv (0 - a)) := by
  constructor
  · intro l1 l2 hlhs h1 h2 hrhs
    rcases normalize_lhsFocus iq hk0 ha hlhs h1 h2 hrhs with ⟨R, heq, hcoeff, _⟩
    refine ⟨R, heq, ?_⟩
    intro k hkfree
    have hne : ¬ k0 = k := by
      intro h
      rw [h] at hk0
      rw [hk0] at hkfree
      exact absurd hkfree (by decide)
    rw [hcoeff k, hlhs, coeffSum_append, coeffSum_cons]
    rw [if_neg hne]
    ring_nf
  · intro r1 r2 hrhs h1 h2 hlhs
    rcases normalize_rhsFocus iq hk0 ha hrhs h1 h2 hlhs with ⟨R, heq, hcoeff⟩
    refine ⟨R, heq, ?_⟩
    intro k hkfree
    have hne : ¬ k0 = k := by
      intro h
      rw [h] at hk0
      rw [hk0] at hkfree
      exact absurd hkfree (by decide)
    rw [hcoeff k, hrhs, coeffSum_append, coeffSum_cons]
    rw [if_neg hne]
    ring_nf

theorem Inequality.normalize_focus_spec_witness :
    ∃ R, Inequality.normalize 0 ⟨IneqKind.sle, [(some (0, 0), 2)], [(none, 5)]⟩ =
        (⟨if (2 : Int) < 0 then flipKind IneqKind.sle else IneqKind.sle,
          [(some (0, 0), 1)], R⟩, true) ∧
      ∀ k, isFocusKey 0 k = false →
        coeffSum R k =
          (coeffSum [((none : TermKey), (5 : Int))] k -
            coeffSum [((some (0, 0) : TermKey), (2 : Int))] k).tdiv 2 :=
  (Inequality.normalize_focus_spec 0 (some (0, 0))
      ⟨IneqKind.sle, [(some (0, 0), 2)], [(none, 5)]⟩ 2 (by decide) (by decide)).1
    [] [] rfl (fun p hp => absurd hp (List.not_mem_nil p))
    (fun p hp => absurd hp (List.not_mem_nil p))
    (fun p hp => by
      simp only [List.mem_singleton] at hp
      subst hp
      rfl)

/-- Precondition under which the one-variable Fourier-Motzkin round is sound:
every inequality either avoids the focus array entirely, or mentions it in
exactly one term, the fixed read `k0`, with coefficient 1 on the left. -/
def GoodIneq (focus : Nat) (k0 : TermKey) (iq : Inequality) : Prop :=
  focusFree focus iq.rhs ∧
  (focusFree focus iq.lhs ∨
    ∃ l1 l2, iq.lhs = l1 ++ (k0, (1 : Int)) :: l2 ∧
      focusFree focus l1 ∧ focusFree focus l2)

theorem satisfied_shift (sg : Nat × Nat → Int) (kind : IneqKind) (L R : LinMap) :
    Inequality.satisfied sg ⟨kind, [(none, 0)], movePosAll R (moveNegAll L [])⟩ =
      Inequality.satisfied sg ⟨kind, L, R⟩ := by
  have h1 : evalLin sg [((none : TermKey), (0 : Int))] = 0 := by simp [evalLin]
  have h2 : evalLin sg (movePosAll R (moveNegAll L [])) =
      evalLin sg R - evalLin sg L := by
    rw [movePosAll_eval, moveNegAll_eval]
    simp only [evalLin, List.map_nil, List.sum_nil]
    ring
  cases kind <;>
    simp only [Inequality.satisfied, h1, h2] <;>
    exact decide_eq_decide.mpr (by omega)

theorem normalize_good_cases {focus : Nat} {k0 : TermKey} (iq : Inequality)
    (hk0 : isFocusKey focus k0 = true) (hG : GoodIneq focus k0 iq)
    (sg : Nat × Nat → Int) (hsat : iq.satisfied sg = true) :
    ((iq.normalize focus).2 = false ∧
      (iq.normalize focus).1.satisfied sg = true) ∨
    (∃ R, iq.normalize focus = (⟨iq.kind, [(k0, 1)], R⟩, true) ∧
      Inequality.satisfied sg ⟨iq.kind, [(k0, 1)], R⟩ = true) := by
  rcases hG with ⟨hrhs, hlhs | ⟨l1, l2, hsplit, h1, h2⟩⟩
  · left
    rcases normalize_noFocus iq hlhs hrhs with ⟨hflag, hout⟩
    refine ⟨hflag, ?_⟩
    rcases hout with h | h
    · rw [h]
      exact hsat
    · rw [h]
      have := satisfied_shift sg iq.kind iq.lhs iq.rhs
      rw [this]
      have hiq : (⟨iq.kind, iq.lhs, iq.rhs⟩ : Inequality) = iq := rfl
      rw [hiq]
      exact hsat
  · right
    rcases normalize_lhsFocus iq hk0 one_ne_zero hsplit h1 h2 hrhs with
      ⟨R, heq, _, heval⟩
    have hnneg : ¬ ((1 : Int) < 0) := by omega
    rw [if_neg hnneg] at heq
    refine ⟨R, heq, ?_⟩
    have hR : evalLin sg R = evalLin sg iq.rhs - evalLin sg l2 - evalLin sg l1 :=
      heval rfl sg
    have hL : evalLin sg iq.lhs =
        evalLin sg l1 + (keyVal sg k0 + evalLin sg l2) := by
      rw [hsplit, evalLin_append, evalLin_cons]
      ring_nf
    have hlhs1 : evalLin sg [(k0, (1 : Int))] = keyVal sg k0 := evalLin_unit sg k0
    have hs2 : Inequality.satisfied sg ⟨iq.kind, iq.lhs, iq.rhs⟩ = true := hsat
    cases hknd : iq.kind <;>
      rw [hknd] at hs2 <;>
      simp only [Inequality.satisfied, decide_eq_true_eq] at hs2 ⊢ <;>
      rw [hlhs1, hR] <;>
      rw [hL] at hs2 <;>
      omega

/-- The invariant carried through `classifyAll`: members of the four bound
packs are normalized bounds on the focus read with the matching comparator,
and every inequality in the graph is satisfied. -/
def PackBounds (sg : Nat × Nat → Int) (k0 : TermKey) (p : Packs) : Prop :=
  (∀ x ∈ p.lePack, x.kind = IneqKind.sle ∧ x.lhs = [(k0, 1)] ∧
    x.satisfied sg = true) ∧
  (∀ x ∈ p.gePack, x.kind = IneqKind.sge ∧ x.lhs = [(k0, 1)] ∧
    x.satisfied sg = true) ∧
  (∀ x ∈ p.ltPack, x.kind = IneqKind.slt ∧ x.lhs = [(k0, 1)] ∧
    x.satisfied sg = true) ∧
  (∀ x ∈ p.gtPack, x.kind = IneqKind.sgt ∧ x.lhs = [(k0, 1)] ∧
    x.satisfied sg = true) ∧
  (∀ x ∈ p.nonePack, x.satisfied sg = true)

theorem classifyAll_aux {focus : Nat} {k0 : TermKey} {sg : Nat × Nat → Int}
    (hk0 : isFocusKey focus k0 = true) :
    ∀ (pack : List Inequality) (p0 : Packs),
      (∀ iq ∈ pack, GoodIneq focus k0 iq ∧ iq.satisfied sg = true) →
      PackBounds sg k0 p0 →
      PackBounds sg k0
        (pack.foldl (fun p iq => classifyStep p (iq.normalize focus)) p0) := by
  intro pack
  induction pack with
  | nil =>
    intro p0 _ hp0
    exact hp0
  | cons iq rest ih =>
    intro p0 hall hp0
    have hiq := hall iq (List.mem_cons_self _ _)
    have hrest : ∀ x ∈ rest, GoodIneq focus k0 x ∧ x.satisfied sg = true :=
      fun x hx => hall x (List.mem_cons_of_mem _ hx)
    rw [List.foldl_cons]
    refine ih _ hrest ?_
    obtain ⟨hle, hge, hlt, hgt, hnone⟩ := hp0
    rcases normalize_good_cases iq hk0 hiq.1 sg hiq.2 with
      ⟨hflag, hsat2⟩ | ⟨R, heq, hsat2⟩
    · cases hn : iq.normalize focus with
      | mk out flag =>
        rw [hn] at hflag hsat2
        simp only at hflag hsat2
        subst hflag
        have hcs : classifyStep p0 (out, false) =
            { p0 with nonePack := p0.nonePack ++ [out] } := by
          simp [classifyStep]
        rw [hcs]
        refine ⟨hle, hge, hlt, hgt, ?_⟩
        intro x hx
        rcases List.mem_append.mp hx with h | h
        · exact hnone x h
        · simp only [List.mem_cons, List.not_mem_nil, or_false] at h
          rw [h]
          exact hsat2
    · rw [heq]
      cases hknd : iq.kind
      · rw [hknd] at heq hsat2
        have hcs : classifyStep p0 (⟨IneqKind.sle, [(k0, 1)], R⟩, true) =
            { p0 with lePack := p0.lePack ++ [⟨IneqKind.sle, [(k0, 1)], R⟩] } := by
          simp [classifyStep]
        rw [hcs]
        refine ⟨?_, hge, hlt, hgt, hnone⟩
        intro x hx
        rcases List.mem_append.mp hx with h | h
        · exact hle x h
        · simp only [List.mem_cons, List.not_mem_nil, or_false] at h
          rw [h]
          exact ⟨rfl, rfl, hsat2⟩
      · rw [hknd] at heq hsat2
        have hcs : classifyStep p0 (⟨IneqKind.slt, [(k0, 1)], R⟩, true) =
            { p0 with ltPack := p0.ltPack ++ [⟨IneqKind.slt, [(k0, 1)], R⟩] } := by
          simp [classifyStep]
        rw [hcs]
        refine ⟨hle, hge, ?_, hgt, hnone⟩
        intro x hx
        rcases List.mem_append.mp hx with h | h
        · exact hlt x h
        · simp only [List.mem_cons, List.not_mem_nil, or_false] at h
          rw [h]
          exact ⟨rfl, rfl, hsat2⟩
      · rw [hknd] at heq hsat2
        have hcs : classifyStep p0 (⟨IneqKind.sge, [(k0, 1)], R⟩, true) =
            { p0 with gePack := p0.gePack ++ [⟨IneqKind.sge, [(k0, 1)], R⟩] } := by
          simp [classifyStep]
        rw [hcs]
        refine ⟨hle, ?_, hlt, hgt, hnone⟩
        intro x hx
        rcases List.mem_append.mp hx with h | h
        · exact hge x h
        · simp only [List.mem_cons, List.not_mem_nil, or_false] at h
          rw [h]
          exact ⟨rfl, rfl, hsat2⟩
      · rw [hknd] at heq hsat2
        have hcs : classifyStep p0 (⟨IneqKind.sgt, [(k0, 1)], R⟩, true) =
            { p0 with gtPack := p0.gtPack ++ [⟨IneqKind.sgt, [(k0, 1)], R⟩] } := by
          simp [classifyStep]
        rw [hcs]
        refine ⟨hle, hge, hlt, ?_, hnone⟩
        intro x hx
        rcases List.mem_append.mp hx with h | h
        · exact hgt x h
        · simp only [List.mem_cons, List.not_mem_nil, or_false] at h
          rw [h]
          exact ⟨rfl, rfl, hsat2⟩

theorem mem_matchingLoop {k : IneqKind} {pack1 pack2 : List Inequality}
    {z : Inequality} :
    z ∈ matchingLoop k pack1 pack2 ↔
      ∃ i1 ∈ pack1, ∃ i2 ∈ pack2, z = Inequality.mk k i1.rhs i2.rhs := by
  induction pack1 with
  | nil => simp [matchingLoop]
  | cons i1 rest ih =>
    simp only [matchingLoop, List.foldr_cons, List.mem_append, List.mem_map]
    simp only [matchingLoop] at ih
    constructor
    · rintro (⟨i2, hi2, hz⟩ | h)
      · exact ⟨i1, List.mem_cons_self _ _, i2, hi2, hz.symm⟩
      · rcases ih.mp h with ⟨j1, hj1, j2, hj2, hz⟩
        exact ⟨j1, List.mem_cons_of_mem _ hj1, j2, hj2, hz⟩
    · rintro ⟨j1, hj1, j2, hj2, hz⟩
      rcases List.mem_cons.mp hj1 with h | h
      · subst h
        exact Or.inl ⟨j2, hj2, hz.symm⟩
      · exact Or.inr (ih.mpr ⟨j1, h, j2, hj2, hz⟩)

theorem matchPacks_sat {sg : Nat × Nat → Int} {k0 : TermKey} {p : Packs}
    (hB : PackBounds sg k0 p) :
    ∀ z ∈ matchPacks p.lePack p.gePack p.ltPack p.gtPack,
      z.satisfied sg = true := by
  obtain ⟨hle, hge, hlt, hgt, _⟩ := hB
  intro z hz
  unfold matchPacks at hz
  have hcase : z ∈ matchingLoop IneqKind.sle p.gePack p.lePack ∨
      z ∈ matchingLoop IneqKind.slt p.gtPack p.lePack ∨
      z ∈ matchingLoop IneqKind.slt p.gePack p.ltPack ∨
      z ∈ matchingLoop IneqKind.slt p.gtPack p.ltPack := by
    rcases List.mem_append.mp hz with h3 | h4
    · rcases List.mem_append.mp h3 with h2 | h3b
      · rcases List.mem_append.mp h2 with h1 | h2b
        · exact Or.inl h1
        · exact Or.inr (Or.inl h2b)
      · exact Or.inr (Or.inr (Or.inl h3b))
    · exact Or.inr (Or.inr (Or.inr h4))
  rcases hcase with hz1 | hz1 | hz1 | hz1
  · rcases mem_matchingLoop.mp hz1 with ⟨i1, h1, i2, h2, hzeq⟩
    obtain ⟨hk1, hl1, hs1⟩ := hge i1 h1
    obtain ⟨hk2, hl2, hs2⟩ := hle i2 h2
    obtain ⟨k1, l1, r1⟩ := i1
    obtain ⟨k2, l2, r2⟩ := i2
    simp only at hk1 hl1 hk2 hl2 hzeq
    subst hk1
    subst hl1
    subst hk2
    subst hl2
    subst hzeq
    simp only [Inequality.satisfied, decide_eq_true_eq, evalLin_unit] at hs1 hs2 ⊢
    omega
  · rcases mem_matchingLoop.mp hz1 with ⟨i1, h1, i2, h2, hzeq⟩
    obtain ⟨hk1, hl1, hs1⟩ := hgt i1 h1
    obtain ⟨hk2, hl2, hs2⟩ := hle i2 h2
    obtain ⟨k1, l1, r1⟩ := i1
    obtain ⟨k2, l2, r2⟩ := i2
    simp only at hk1 hl1 hk2 hl2 hzeq
    subst hk1
    subst hl1
    subst hk2
    subst hl2
    subst hzeq
    simp only [Inequality.satisfied, decide_eq_true_eq, evalLin_unit] at hs1 hs2 ⊢
    omega
  · rcases mem_matchingLoop.mp hz1 with ⟨i1, h1, i2, h2, hzeq⟩
    obtain ⟨hk1, hl1, hs1⟩ := hge i1 h1
    obtain ⟨hk2, hl2, hs2⟩ := hlt i2 h2
    obtain ⟨k1, l1, r1⟩ := i1
    obtain ⟨k2, l2, r2⟩ := i2
    simp only at hk1 hl1 hk2 hl2 hzeq
    subst hk1
    subst hl1
    subst hk2
    subst hl2
    subst hzeq
    simp only [Inequality.satisfied, decide_eq_true_eq, evalLin_unit] at hs1 hs2 ⊢
    omega
  · rcases mem_matchingLoop.mp hz1 with ⟨i1, h1, i2, h2, hzeq⟩
    obtain ⟨hk1, hl1, hs1⟩ := hgt i1 h1
    obtain ⟨hk2, hl2, hs2⟩ := hlt i2 h2
    obtain ⟨k1, l1, r1⟩ := i1
    obtain ⟨k2, l2, r2⟩ := i2
    simp only at hk1 hl1 hk2 hl2 hzeq
    subst hk1
    subst hl1
    subst hk2
    subst hl2
    subst hzeq
    simp only [Inequality.satisfied, decide_eq_true_eq, evalLin_unit] at hs1 hs2 ⊢
    omega

/-- C3 amended: the Fourier-Motzkin round of `simplifyWithFourierMotzkin` is
sound in one direction under unit focus coefficients — when every inequality
mentions the eliminated variable at most in one fixed read term with
coefficient 1 on the left, any assignment satisfying the original pack
satisfies the produced pack — and `Inequality::match` emits, for every pair
of an upper and a lower bound, the bound pair with the comparator strict
exactly when one of the matched bounds is strict (`x ≥ e2, x ≤ e1` yields the
non-strict `e2 ≤ e1`; the three combinations involving a strict bound yield
`e2 < e1`).  The claimed equisatisfiability fails in general: see the
counterexample. -/
theorem fourierMotzkin_sound_unit_coeff :
    (∀ (focus : Nat) (k0 : TermKey), isFocusKey focus k0 = true →
      ∀ (pack : List Inequality), (∀ iq ∈ pack, GoodIneq focus k0 iq) →
      ∀ sg : Nat × Nat → Int, satPack sg pack = true →
        satPack sg (fourierMotzkinStep focus pack) = true) ∧
    (∀ pl pg plt pgt : List Inequality,
      (∀ i1 ∈ pg, ∀ i2 ∈ pl,
        Inequality.mk IneqKind.sle i1.rhs i2.rhs ∈ matchPacks pl pg plt pgt) ∧
      (∀ i1 ∈ pgt, ∀ i2 ∈ pl,
        Inequality.mk IneqKind.slt i1.rhs i2.rhs ∈ matchPacks pl pg plt pgt) ∧
      (∀ i1 ∈ pg, ∀ i2 ∈ plt,
        Inequality.mk IneqKind.slt i1.rhs i2.rhs ∈ matchPacks pl pg plt pgt) ∧
      (∀ i1 ∈ pgt, ∀ i2 ∈ plt,
        Inequality.mk IneqKind.slt i1.rhs i2.rhs ∈ matchPacks pl pg plt pgt)) := by
  constructor
  · intro focus k0 hk0 pack hG sg hsat
    have hall : ∀ iq ∈ pack, GoodIneq focus k0 iq ∧ iq.satisfied sg = true := by
      intro iq hiq
      exact ⟨hG iq hiq, by
        have := List.all_eq_true.mp hsat iq hiq
        simpa using this⟩
    have hempty : PackBounds sg k0 ⟨[], [], [], [], []⟩ :=
      ⟨fun x hx => absurd hx (List.not_mem_nil x),
       fun x hx => absurd hx (List.not_mem_nil x),
       fun x hx => absurd hx (List.not_mem_nil x),
       fun x hx => absurd hx (List.not_mem_nil x),
       fun x hx => absurd hx (List.not_mem_nil x)⟩
    have hbounds : PackBounds sg k0 (classifyAll focus pack) :=
      classifyAll_aux hk0 pack ⟨[], [], [], [], []⟩ hall hempty
    unfold fourierMotzkinStep
    rw [satPack, List.all_eq_true]
    intro z hz
    rcases List.mem_append.mp hz with h | h
    · simpa using matchPacks_sat hbounds z h
    · obtain ⟨_, _, _, _, hnone⟩ := hbounds
      simpa using hnone z h
  · intro pl pg plt pgt
    refine ⟨?_, ?_, ?_, ?_⟩
    · intro i1 h1 i2 h2
      unfold matchPacks
      exact List.mem_append_left _ (List.mem_append_left _
        (List.mem_append_left _ (mem_matchingLoop.mpr ⟨i1, h1, i2, h2, rfl⟩)))
    · intro i1 h1 i2 h2
      unfold matchPacks
      exact List.mem_append_left _ (List.mem_append_left _
        (List.mem_append_right _ (mem_matchingLoop.mpr ⟨i1, h1, i2, h2, rfl⟩)))
    · intro i1 h1 i2 h2
      unfold matchPacks
      exact List.mem_append_left _ (List.mem_append_right _
        (mem_matchingLoop.mpr ⟨i1, h1, i2, h2, rfl⟩))
    · intro i1 h1 i2 h2
      unfold matchPacks
      exact List.mem_append_right _ (mem_matchingLoop.mpr ⟨i1, h1, i2, h2, rfl⟩)

theorem fourierMotzkin_sound_unit_coeff_witness :
    satPack (fun _ => 2)
      (fourierMotzkinStep 0
        [⟨IneqKind.sge, [(some (0, 0), 1)], [(none, 1)]⟩,
         ⟨IneqKind.sle, [(some (0, 0), 1)], [(none, 3)]⟩]) = true := by
  refine fourierMotzkin_sound_unit_coeff.1 0 (some (0, 0)) (by decide) _ ?_
    (fun _ => 2) (by decide)
  intro iq hiq
  rcases List.mem_cons.mp hiq with h | h
  · subst h
    refine ⟨?_, Or.inr ⟨[], [], rfl, ?_, ?_⟩⟩
    · intro p hp
      simp only [List.mem_singleton] at hp
      subst hp
      rfl
    · intro p hp
      exact absurd hp (List.not_mem_nil p)
    · intro p hp
      exact absurd hp (List.not_mem_nil p)
  · simp only [List.mem_singleton] at h
    subst h
    refine ⟨?_, Or.inr ⟨[], [], rfl, ?_, ?_⟩⟩
    · intro p hp
      simp only [List.mem_singleton] at hp
      subst hp
      rfl
    · intro p hp
      exact absurd hp (List.not_mem_nil p)
    · intro p hp
      exact absurd hp (List.not_mem_nil p)

/-- C3 counterexample: the conjunction `2x ≥ 1 ∧ x ≤ 0` has no integer
solution, yet eliminating `x` as implemented — truncated division by the
coefficient 2 turns `2x ≥ 1` into `x ≥ 0` — produces `0 ≤ 0`, which every
assignment satisfies.  Thus the eliminated form is satisfiable while no
extension satisfies the original conjunction, refuting the claimed
equisatisfiability. -/
theorem fourierMotzkin_preserves_sat_cex :
    satPack (fun _ => 0)
      (fourierMotzkinStep 0
        [⟨IneqKind.sge, [(some (0, 0), 2)], [(none, 1)]⟩,
         ⟨IneqKind.sle, [(some (0, 0), 1)], [(none, 0)]⟩]) = true ∧
    ∀ sg : Nat × Nat → Int,
      satPack sg [⟨IneqKind.sge, [(some (0, 0), 2)], [(none, 1)]⟩,
                  ⟨IneqKind.sle, [(some (0, 0), 1)], [(none, 0)]⟩] = false := by
  constructor
  · decide
  · intro sg
    rw [← Bool.not_eq_true]
    intro hs
    simp only [satPack, List.all_cons, List.all_nil, Bool.and_true, Bool.and_eq_true,
      Inequality.satisfied, evalLin, keyVal, List.map_cons, List.map_nil,
      List.sum_cons, List.sum_nil, decide_eq_true_eq] at hs
    omega

end TracerX
